import Mathlib

/-!
# envv: dotenv loader and typed environment accessors

A shallow embedding of the Go package `envv` (`dotenv.go`, `envv.go`).

* Go strings are modelled by Lean `String`s.  Every byte the package and the
  library routines it calls look at is ASCII, so a character outside ASCII
  behaves like the non-matching bytes of its UTF-8 encoding.
* The process environment is an explicit value of type `os.Store`; `os.Getenv`
  and `os.Setenv` follow the Unix implementation in package `syscall`.
* `int` is the 64-bit Go `int`; `time.Duration` is an `int64` count of
  nanoseconds; `float64` is its IEEE-754 bit pattern.
* A Go `panic` is the `Except.error` result of `envv.Parse`.
-/

set_option autoImplicit false

namespace Envv

deriving instance DecidableEq for Except

/-! ## Package `strings` -/

namespace strings

/-- Go `strings.HasPrefix(s, p)`: `len(s) >= len(p) && s[:len(p)] == p`. -/
def HasPrefix (s p : String) : Bool :=
  p.data.isPrefixOf s.data

/-- The cut that `strings.genSplit` makes at `strings.Index(s, sep)` for a
one-byte separator: the text before the first `sep` and the text after it,
or `none` when `sep` does not occur (the index is `-1`). -/
def cutAt (sep : Char) : List Char → Option (List Char × List Char)
  | [] => none
  | c :: cs =>
    if c = sep then some ([], cs)
    else
      match cutAt sep cs with
      | none => none
      | some (a, b) => some (c :: a, b)

/-- The loop of Go `strings.genSplit(s, sep, 0, n)` for a one-byte separator
and `n ≥ 0`: at most `n` pieces, the last one the unsplit remainder. (The
source's cap `n = len(s) + 1` only bounds the allocation: a string of length
`l` never has more than `l + 1` pieces.) -/
def splitChars (sep : Char) : Nat → List Char → List (List Char)
  | 0, _ => []
  | 1, s => [s]
  | n + 2, s =>
    match cutAt sep s with
    | none => [s]
    | some (a, rest) => a :: splitChars sep (n + 1) rest

/-- Go `strings.SplitN(s, sep, n)` for a one-byte separator and `n ≥ 0`. -/
def SplitN (s : String) (sep : Char) (n : Nat) : List String :=
  (splitChars sep n s.data).map String.mk

end strings

/-! ## Package `os`: the process environment -/

namespace os

/-- The process environment: the map from a variable name to its value, with
`none` for a name that is not set. -/
abbrev Store := String → Option String

/-- The checks of `syscall.Setenv` (Unix): the key is non-empty and holds
neither `=` nor a NUL byte, the value holds no NUL byte. -/
def validSetenv (key value : String) : Bool :=
  !key.data.isEmpty
    && !key.data.any (fun c => c == '=' || c == Char.ofNat 0)
    && !value.data.any (fun c => c == Char.ofNat 0)

/-- Go `os.Setenv(key, value)`: `none` is the `EINVAL` error, in which case
the environment is left as it was. -/
def Setenv (env : Store) (key value : String) : Option Store :=
  if validSetenv key value then
    some (fun k => if k = key then some value else env k)
  else none

/-- Go `os.LookupEnv(key)` (`syscall.Getenv`): the empty key is never found. -/
def LookupEnv (env : Store) (key : String) : Option String :=
  if key = "" then none else env key

/-- Go `os.Getenv(key)`: the value, or `""` when the variable is not set. -/
def Getenv (env : Store) (key : String) : String :=
  (LookupEnv env key).getD ""

end os

/-! ## Package `bufio`: the line scanner -/

namespace bufio

/-- Go `bufio.MaxScanTokenSize`: the size of the scanner's buffer. -/
def MaxScanTokenSize : Nat := 64 * 1024

/-- Go `bufio.dropCR`: drop one trailing carriage return. -/
def dropCR (data : List Char) : List Char :=
  match data.getLast? with
  | some c => if c = Char.ofNat 13 then data.dropLast else data
  | none => data

/-- The tokens that the loop `for scanner.Scan() { scanner.Text() }` sees for
a `bufio.Scanner` with the default split function `ScanLines` and the default
buffer.  `acc` holds the bytes of the current line in reverse, `n` their
number.  A line ends at a newline, which must lie inside the buffer; the last
line may lack it.  When the buffer is full and holds no newline, `Scan` stops
with `ErrTooLong` and the loop ends. -/
def scanFrom (acc : List Char) (n : Nat) : List Char → List String
  | [] =>
    if n = 0 then []
    else if n < MaxScanTokenSize then [String.mk (dropCR acc.reverse)]
    else []
  | c :: cs =>
    if c = Char.ofNat 10 then
      if n < MaxScanTokenSize then String.mk (dropCR acc.reverse) :: scanFrom [] 0 cs
      else []
    else scanFrom (c :: acc) (n + c.utf8Size) cs

/-- The lines a default `bufio.Scanner` yields for a file with this text. -/
def ScanLines (text : String) : List String :=
  scanFrom [] 0 text.data

end bufio

/-! ## `dotenv.go` -/

/-- A record handed to `log/slog`: the level is the constructor, then the
message and the value of the record's one attribute. -/
inductive LogRecord
  | Error (msg : String) (err : String)
  | Warn (msg : String) (value : String)
  deriving DecidableEq, Repr

/-- What `LoadFile` acts on: the process environment and the log. -/
structure World where
  env : os.Store
  log : List LogRecord

/-- The files `os.Open` can see: the text of the file at a path, or the
error of the failed open. -/
abbrev FileSystem := String → Except String String

/-- The body of the scanning loop of `LoadFile` (dotenv.go, lines 26-39) for
one line.  The error that `os.Setenv` returns is dropped, as in the source. -/
def LoadFile.step (w : World) (line : String) : World :=
  if strings.HasPrefix line "#" then w
  else
    match strings.SplitN line '=' 2 with
    | [key, value] =>
      match os.Setenv w.env key value with
      | some env => { w with env := env }
      | none => w
    | parts => { w with log := w.log ++ [LogRecord.Warn "invalid env value" (parts.headD "")] }

/-- The scanning loop of `LoadFile` (dotenv.go, lines 25-40) over the lines
that the scanner yields. -/
def LoadFile.loop (w : World) (lines : List String) : World :=
  lines.foldl LoadFile.step w

/-- Go `LoadFile(path)`: loads the given file and sets the env vars. -/
def LoadFile (fs : FileSystem) (path : String) (w : World) : World :=
  match fs path with
  | .error err => { w with log := w.log ++ [LogRecord.Error "failed to open file" err] }
  | .ok text => LoadFile.loop w (bufio.ScanLines text)

/-- Go `LoadDotEnv()`: loads the `.env` file in the current directory. -/
def LoadDotEnv (fs : FileSystem) (w : World) : World :=
  LoadFile fs ".env" w

/-! ## Package `strconv` -/

namespace strconv

/-- The two errors a `strconv.NumError` wraps here: `strconv.ErrSyntax` and
`strconv.ErrRange`. -/
inductive ErrKind
  | ErrSyntax
  | ErrRange
  deriving DecidableEq, Repr

/-- Go `strconv.NumError`: the failing function, the input and the reason. -/
structure NumError where
  Func : String
  Num : String
  Err : ErrKind
  deriving DecidableEq, Repr

/-- Go `strconv.syntaxError(fn, str)`. -/
def syntaxError (fn str : String) : NumError := ⟨fn, str, ErrKind.ErrSyntax⟩

/-- Go `strconv.rangeError(fn, str)`. -/
def rangeError (fn str : String) : NumError := ⟨fn, str, ErrKind.ErrRange⟩

/-- Go `strconv.IntSize` on a 64-bit platform. -/
def IntSize : Nat := 64

/-- The byte test `'0' <= c && c <= '9'`. -/
def isDigit (c : Char) : Bool :=
  decide (48 ≤ c.toNat) && decide (c.toNat ≤ 57)

/-- Go `strconv.lower(c)`: `c | ('x' - 'X')`. -/
def lower (c : Char) : Nat := c.toNat ||| 32

/-- Go `strconv.ParseBool(str)`. -/
def ParseBool (str : String) : Bool × Option NumError :=
  if str = "1" ∨ str = "t" ∨ str = "T" ∨ str = "TRUE" ∨ str = "true" ∨ str = "True" then
    (true, none)
  else if str = "0" ∨ str = "f" ∨ str = "F" ∨ str = "FALSE" ∨ str = "false"
      ∨ str = "False" then
    (false, none)
  else (false, some (syntaxError "ParseBool" str))

/-- The digit loop of `strconv.ParseUint(s, 10, 0)` from the value `n` on:
the value and the error.  A letter is a digit of value ten or more, hence a
syntax error in base 10. -/
def ParseUint.loop (s0 : String) : List Char → Nat → Nat × Option NumError
  | [], n => (n, none)
  | c :: cs, n =>
    if isDigit c then
      if n ≥ (2 ^ 64 - 1) / 10 + 1 then (2 ^ 64 - 1, some (rangeError "ParseUint" s0))
      else
        let n10 := n * 10 % 2 ^ 64
        let n1 := (n10 + (c.toNat - 48)) % 2 ^ 64
        if n1 < n10 ∨ n1 > 2 ^ 64 - 1 then (2 ^ 64 - 1, some (rangeError "ParseUint" s0))
        else ParseUint.loop s0 cs n1
    else (0, some (syntaxError "ParseUint" s0))

/-- Go `strconv.ParseUint(s, 10, 0)`: base 10 (no underscores, no base
prefix), the size of `uint`. -/
def ParseUint (s : String) : Nat × Option NumError :=
  if s = "" then (0, some (syntaxError "ParseUint" s))
  else ParseUint.loop s s.data 0

/-- Go `strconv.ParseInt(s, 10, 0)`. -/
def ParseInt (s : String) : Int × Option NumError :=
  if s = "" then (0, some (syntaxError "ParseInt" s))
  else
    let (neg, rest) : Bool × List Char :=
      match s.data with
      | c :: cs => if c = '+' then (false, cs) else if c = '-' then (true, cs) else (false, c :: cs)
      | [] => (false, [])
    let (un, err) := ParseUint (String.mk rest)
    match err with
    | some ⟨_, _, ErrKind.ErrSyntax⟩ => (0, some (syntaxError "ParseInt" s))
    | _ =>
      let cutoff : Nat := 2 ^ (IntSize - 1)
      if !neg && un ≥ cutoff then ((cutoff - 1 : Nat), some (rangeError "ParseInt" s))
      else if neg && un > cutoff then (-(cutoff : Int), some (rangeError "ParseInt" s))
      else (if neg then -(un : Int) else un, none)

/-- The digit loop of the fast path of `strconv.Atoi`: `none` at a byte that
is not a decimal digit (`ch -= '0'; ch > 9`). -/
def Atoi.fast : List Char → Nat → Option Nat
  | [], n => some n
  | c :: cs, n => if isDigit c then Atoi.fast cs (n * 10 + (c.toNat - 48)) else none

/-- Go `strconv.Atoi(s)` for the 64-bit `int`. -/
def Atoi (s : String) : Int × Option NumError :=
  let sLen := s.utf8ByteSize
  if 0 < sLen ∧ sLen < 19 then
    match s.data with
    | [] => (0, some (syntaxError "Atoi" s))
    | c0 :: cs =>
      let digits := if c0 = '-' ∨ c0 = '+' then cs else c0 :: cs
      if digits.length < 1 then (0, some (syntaxError "Atoi" s))
      else
        match Atoi.fast digits 0 with
        | none => (0, some (syntaxError "Atoi" s))
        | some n => (if c0 = '-' then -(n : Int) else n, none)
  else
    let (i64, err) := ParseInt s
    (i64, err.map fun e => { e with Func := "Atoi" })

/-! ### `strconv.ParseFloat` -/

/-- A Go `float64`: its IEEE-754 binary64 bit pattern (`math.Float64bits`). -/
structure Float64 where
  bits : Nat
  deriving DecidableEq, Repr

/-- The position of the highest set bit of `n` (`bits.Len(n) - 1`), zero for
`n < 2`; `fuel` of at least `n` is never used up. -/
def log2From : Nat → Nat → Nat
  | 0, _ => 0
  | fuel + 1, n => if n < 2 then 0 else log2From fuel (n / 2) + 1

@[inherit_doc log2From]
def log2 (n : Nat) : Nat := log2From n n

/-- The nearest binary64 number to the positive rational `num / den`, ties
to even, as mantissa `m` and exponent `p` of `m * 2 ^ p`: `m < 2 ^ 53` and
`p ≥ -1074`, or `m = 2 ^ 53` when rounding carried into the next binade. -/
def roundNearestEven (num den : Nat) : Nat × Int :=
  let e0 : Int := (log2 num : Int) - (log2 den : Int)
  let below : Bool := if e0 ≥ 0 then num < den * 2 ^ e0.toNat else num * 2 ^ (-e0).toNat < den
  let e : Int := if below then e0 - 1 else e0
  let p : Int := max (e - 52) (-1074)
  let n : Nat := if p ≥ 0 then num else num * 2 ^ (-p).toNat
  let d : Nat := if p ≥ 0 then den * 2 ^ p.toNat else den
  let q := n / d
  let r := n % d
  if 2 * r > d ∨ (2 * r = d ∧ q % 2 = 1) then (q + 1, p) else (q, p)

/-- The binary64 bit pattern (sign bit clear) of the positive rational
`num / den` rounded to nearest even, and whether it overflowed to infinity. -/
def floatBits (num den : Nat) : Nat × Bool :=
  if num = 0 then (0, false)
  else
    let (m, p) := roundNearestEven num den
    let b : Nat := (p + 1074).toNat * 2 ^ 52 + m
    if b ≥ 0x7FF0000000000000 then (0x7FF0000000000000, true) else (b, false)

/-- A `float64` that is neither negative nor a NaN: the number `m * 2 ^ p`,
or `+Inf`. -/
inductive NonNegFloat64
  | finite (m : Nat) (p : Int)
  | inf
  deriving DecidableEq, Repr

/-- The `float64` nearest to the rational `num / den`, ties to even; `+Inf`
beyond the largest finite `float64`. -/
def NonNegFloat64.round (num den : Nat) : NonNegFloat64 :=
  if num = 0 then NonNegFloat64.finite 0 0
  else
    let r := roundNearestEven num den
    if (r.2 + 1074).toNat * 2 ^ 52 + r.1 ≥ 0x7FF0000000000000 then NonNegFloat64.inf
    else NonNegFloat64.finite r.1 r.2

/-- The `float64` nearest to `m * 2 ^ e / d`. -/
def NonNegFloat64.roundScaled (m : Nat) (e : Int) (d : Nat) : NonNegFloat64 :=
  if e ≥ 0 then NonNegFloat64.round (m * 2 ^ e.toNat) d
  else NonNegFloat64.round m (d * 2 ^ (-e).toNat)

/-- The `float64` conversion `float64(n)` of an unsigned integer. -/
def NonNegFloat64.ofNat (n : Nat) : NonNegFloat64 := NonNegFloat64.round n 1

/-- The `float64` product `a * b`.  (`Inf * 0` is a NaN in Go and does not
arise here: `time.leadingFraction` multiplies its scale by 10, and the
product of `time.fractionNanos` has finite factors.) -/
def NonNegFloat64.mul : NonNegFloat64 → NonNegFloat64 → NonNegFloat64
  | .finite m1 p1, .finite m2 p2 => NonNegFloat64.roundScaled (m1 * m2) (p1 + p2) 1
  | _, _ => NonNegFloat64.inf

/-- The `float64` quotient `a / b` for `b` other than zero: a finite number
over `+Inf` is zero.  (`Inf / Inf` is a NaN in Go; the one quotient taken
here has a finite dividend and a divisor of at least 1.) -/
def NonNegFloat64.div : NonNegFloat64 → NonNegFloat64 → NonNegFloat64
  | .finite m1 p1, .finite m2 p2 => NonNegFloat64.roundScaled m1 (p1 - p2) m2
  | .finite _ _, .inf => NonNegFloat64.finite 0 0
  | .inf, _ => NonNegFloat64.inf

/-- The conversion `uint64(x)`, which drops the fraction.  (The result for
`+Inf` depends on the platform; the one conversion taken here is of a finite
number below `2 ^ 64`.) -/
def NonNegFloat64.toUint64 : NonNegFloat64 → Nat
  | .finite m p => (if p ≥ 0 then m * 2 ^ p.toNat else m / 2 ^ (-p).toNat) % 2 ^ 64
  | .inf => 2 ^ 63

/-- Go `strconv.commonPrefixLenIgnoreCase(s, p)` for a lower-case `p`. -/
def commonPrefixLenIgnoreCase : List Char → List Char → Nat
  | c :: cs, p :: ps =>
    let c' : Nat := if 65 ≤ c.toNat ∧ c.toNat ≤ 90 then c.toNat + 32 else c.toNat
    if c' ≠ p.toNat then 0 else commonPrefixLenIgnoreCase cs ps + 1
  | _, _ => 0

/-- Go `strconv.special(s)`: a possibly signed infinity or a NaN at the start
of `s`, with the text left after it. -/
def special (s : List Char) : Option (Float64 × List Char) :=
  let inf (neg : Bool) (t : List Char) : Option (Float64 × List Char) :=
    let n0 := commonPrefixLenIgnoreCase t "infinity".data
    let n := if 3 < n0 ∧ n0 < 8 then 3 else n0
    if n = 3 ∨ n = 8 then
      some (⟨if neg then 0xFFF0000000000000 else 0x7FF0000000000000⟩, t.drop n)
    else none
  match s with
  | [] => none
  | c :: cs =>
    if c = '+' ∨ c = '-' then inf (c = '-') cs
    else if c = 'i' ∨ c = 'I' then inf false (c :: cs)
    else if c = 'n' ∨ c = 'N' then
      if commonPrefixLenIgnoreCase (c :: cs) "nan".data = 3 then
        some (⟨0x7FF8000000000001⟩, cs.drop 2)
      else none
    else none

/-- Go `strconv.underscoreOK(s)`: every underscore separates two digits, or
the base prefix and a digit.  `last` is the class of the previous byte:
`'0'` a digit or the base prefix, `'_'` an underscore, `'!'` another byte,
`'^'` the start. -/
def underscoreOK.loop (hex : Bool) : List Char → Char → Bool
  | [], last => last != '_'
  | c :: cs, last =>
    if isDigit c || (hex && decide (97 ≤ lower c) && decide (lower c ≤ 102)) then
      underscoreOK.loop hex cs '0'
    else if c = '_' then
      if last != '0' then false else underscoreOK.loop hex cs '_'
    else if last = '_' then false
    else underscoreOK.loop hex cs '!'

@[inherit_doc underscoreOK.loop]
def underscoreOK (s : List Char) : Bool :=
  let s1 := match s with
    | c :: cs => if c = '-' ∨ c = '+' then cs else c :: cs
    | [] => []
  match s1 with
  | c0 :: c1 :: cs =>
    if c0 = '0' ∧ (lower c1 = 98 ∨ lower c1 = 111 ∨ lower c1 = 120) then
      underscoreOK.loop (lower c1 = 120) cs '0'
    else underscoreOK.loop false s1 '^'
  | _ => underscoreOK.loop false s1 '^'

/-- The state of the digit loop of `strconv.readFloat`.  The mantissa keeps
every digit (the source keeps the first 19, or 16 in base 16, and a flag
for a dropped non-zero digit), so `nd` is also the number of mantissa
digits. -/
structure readFloat.Digits where
  mantissa : Nat
  nd : Nat
  dp : Int
  sawdot : Bool
  sawdigits : Bool
  underscores : Bool

/-- The digit loop of `strconv.readFloat`: the state at the first byte that
ends the loop, and the text from that byte on. -/
def readFloat.digits (base : Nat) : List Char → readFloat.Digits → readFloat.Digits × List Char
  | [], st => (st, [])
  | c :: cs, st =>
    if c = '_' then readFloat.digits base cs { st with underscores := true }
    else if c = '.' then
      if st.sawdot then (st, c :: cs)
      else readFloat.digits base cs { st with sawdot := true, dp := st.nd }
    else if isDigit c then
      if c = '0' ∧ st.nd = 0 then
        readFloat.digits base cs { st with sawdigits := true, dp := st.dp - 1 }
      else
        readFloat.digits base cs
          { st with sawdigits := true, nd := st.nd + 1,
                    mantissa := st.mantissa * base + (c.toNat - 48) }
    else if base = 16 ∧ 97 ≤ lower c ∧ lower c ≤ 102 then
      readFloat.digits base cs
        { st with sawdigits := true, nd := st.nd + 1,
                  mantissa := st.mantissa * 16 + (lower c - 97 + 10) }
    else (st, c :: cs)

/-- The digit loop of the exponent in `strconv.readFloat`: the exponent
(no longer extended once it has reached 10000), whether an underscore was
seen, and the text left. -/
def readFloat.exponent : List Char → Nat → Bool → Nat × Bool × List Char
  | [], e, u => (e, u, [])
  | c :: cs, e, u =>
    if c = '_' then readFloat.exponent cs e true
    else if isDigit c then
      readFloat.exponent cs (if e < 10000 then e * 10 + (c.toNat - 48) else e) u
    else (e, u, c :: cs)

/-- What `strconv.readFloat` reads: the number is
`(-1)^neg * mantissa * base ^ exp` with base 2 when `hex` and 10 otherwise. -/
structure readFloat.Result where
  mantissa : Nat
  exp : Int
  neg : Bool
  hex : Bool
  rest : List Char

/-- Go `strconv.readFloat(s)`: `none` when `ok` is false. -/
def readFloat (s : List Char) : Option readFloat.Result :=
  match s with
  | [] => none
  | c0 :: cs0 =>
    let neg : Bool := c0 = '-'
    let s1 : List Char := if c0 = '+' ∨ c0 = '-' then cs0 else s
    let hex : Bool :=
      match s1 with
      | a :: b :: _ :: _ => a = '0' ∧ lower b = 120
      | _ => false
    let base : Nat := if hex then 16 else 10
    let expChar : Nat := if hex then 112 else 101
    let (st, s2) := readFloat.digits base (if hex then s1.drop 2 else s1) ⟨0, 0, 0, false, false, false⟩
    if !st.sawdigits then none
    else
      let dp0 : Int := if st.sawdot then st.dp else st.nd
      let dp1 : Int := if hex then dp0 * 4 else dp0
      let ndMant : Int := if hex then (st.nd : Int) * 4 else st.nd
      let finish (dp : Int) (underscores : Bool) (rest : List Char) : Option readFloat.Result :=
        if underscores && !underscoreOK (s.take (s.length - rest.length)) then none
        else some ⟨st.mantissa, if st.mantissa ≠ 0 then dp - ndMant else 0, neg, hex, rest⟩
      match s2 with
      | c :: cs =>
        if lower c = expChar then
          match cs with
          | [] => none
          | c1 :: cs1 =>
            let esign : Int := if c1 = '-' then -1 else 1
            let s3 : List Char := if c1 = '+' ∨ c1 = '-' then cs1 else cs
            match s3 with
            | [] => none
            | c2 :: _ =>
              if !isDigit c2 then none
              else
                let (e, u, rest) := readFloat.exponent s3 0 st.underscores
                finish (dp1 + e * esign) u rest
        else if hex then none
        else finish dp1 st.underscores s2
      | [] => if hex then none else finish dp1 st.underscores s2

/-- Go `strconv.atof64(s)`: the value, the text left after it, and the
error.  The value is the one the package documents and its three conversion
paths (exact, Eisel-Lemire, decimal) compute: the binary64 number nearest to
the number read, ties to even; `±Inf` with a range error beyond the largest
float. -/
def atof64 (s : String) : Float64 × List Char × Option NumError :=
  match special s.data with
  | some (val, rest) => (val, rest, none)
  | none =>
    match readFloat s.data with
    | none => (⟨0⟩, s.data, some (syntaxError "ParseFloat" s))
    | some r =>
      let (b, ovf) :=
        if r.exp ≥ 0 then floatBits (r.mantissa * (if r.hex then 2 else 10) ^ r.exp.toNat) 1
        else floatBits r.mantissa ((if r.hex then 2 else 10) ^ (-r.exp).toNat)
      (⟨if r.neg then b + 2 ^ 63 else b⟩, r.rest,
        if ovf then some (rangeError "ParseFloat" s) else none)

/-- Go `strconv.ParseFloat(s, 64)`. -/
def ParseFloat (s : String) : Float64 × Option NumError :=
  let (f, rest, err) := atof64 s
  match rest, err with
  | _ :: _, none => (⟨0⟩, some (syntaxError "ParseFloat" s))
  | _ :: _, some ⟨_, _, ErrKind.ErrRange⟩ => (⟨0⟩, some (syntaxError "ParseFloat" s))
  | _, _ => (f, err)

end strconv

/-! ## Package `time`: `ParseDuration` -/

namespace time

/-- Go `time.leadingInt(s)` from the value `x` on: the value and the text
left, or `none` for `errLeadingInt` (the value passed `1 << 63`). -/
def leadingInt : List Char → Nat → Option (Nat × List Char)
  | [], x => some (x, [])
  | c :: cs, x =>
    if !strconv.isDigit c then some (x, c :: cs)
    else if x > 2 ^ 63 / 10 then none
    else
      let x1 := (x * 10 + (c.toNat - 48)) % 2 ^ 64
      if x1 > 2 ^ 63 then none else leadingInt cs x1

/-- Go `time.leadingFraction(s)` from the state `x`, `scale`, `overflow` on:
the digits read as an integer, the `float64` that scales them (multiplied by
10, with `float64` rounding, at every digit taken into `x`, leading zeros
included), and the text left.  Digits after an overflow are skipped. -/
def leadingFraction :
    List Char → Nat → strconv.NonNegFloat64 → Bool → Nat × strconv.NonNegFloat64 × List Char
  | [], x, scale, _ => (x, scale, [])
  | c :: cs, x, scale, overflow =>
    if !strconv.isDigit c then (x, scale, c :: cs)
    else if overflow then leadingFraction cs x scale true
    else if x > (2 ^ 63 - 1) / 10 then leadingFraction cs x scale true
    else
      let y := (x * 10 + (c.toNat - 48)) % 2 ^ 64
      if y > 2 ^ 63 then leadingFraction cs x scale true
      else leadingFraction cs y (scale.mul (strconv.NonNegFloat64.ofNat 10)) false

/-- The unit of a duration term: the text up to the next `.` or digit, and
the text left. -/
def unitSpan : List Char → List Char × List Char
  | [] => ([], [])
  | c :: cs =>
    if c = '.' ∨ strconv.isDigit c then ([], c :: cs)
    else ((unitSpan cs).1.cons c, (unitSpan cs).2)

/-- Go `time.unitMap`: nanoseconds per unit. -/
def unitMap (u : String) : Option Nat :=
  if u = "ns" then some 1
  else if u = "us" then some 1000
  else if u = "µs" then some 1000
  else if u = "μs" then some 1000
  else if u = "ms" then some 1000000
  else if u = "s" then some 1000000000
  else if u = "m" then some 60000000000
  else if u = "h" then some 3600000000000
  else none

/-- The `float64` expression `uint64(float64(f) * (float64(unit) / scale))`
of `time.ParseDuration`, for `f > 0`: each operation rounds to the nearest
`float64`, the conversion to `uint64` drops the fraction. -/
def fractionNanos (f unit : Nat) (scale : strconv.NonNegFloat64) : Nat :=
  ((strconv.NonNegFloat64.ofNat f).mul
    ((strconv.NonNegFloat64.ofNat unit).div scale)).toUint64

/-- The text of the errors of `time.ParseDuration`, without the quoted
input. -/
inductive DurationError
  | invalid
  | missingUnit
  | unknownUnit (u : String)
  deriving DecidableEq, Repr

/-- The part `(\.[0-9]*)?` of a term of `time.ParseDuration`, at the text
`s` left after the integer: the fraction digits as an integer, their scale,
the text left, and `post`, whether a digit was consumed after the period. -/
def ParseDuration.fraction (s : List Char) :
    Nat × strconv.NonNegFloat64 × List Char × Bool :=
  match s with
  | c :: cs =>
    if c = '.' then
      let r := leadingFraction cs 0 (strconv.NonNegFloat64.ofNat 1) false
      (r.1, r.2.1, r.2.2, decide (cs.length ≠ r.2.2.length))
    else (0, strconv.NonNegFloat64.ofNat 1, c :: cs, false)
  | [] => (0, strconv.NonNegFloat64.ofNat 1, [], false)

/-- The end of a term of `time.ParseDuration`, at the text `s` left after the
number `v + f / scale`: consume the unit and scale the number by it. -/
def ParseDuration.scaled (v f : Nat) (scale : strconv.NonNegFloat64) (s : List Char) :
    Except DurationError (Nat × List Char) :=
  let us := unitSpan s
  if us.1.length = 0 then .error DurationError.missingUnit
  else
    match unitMap (String.mk us.1) with
    | none => .error (DurationError.unknownUnit (String.mk us.1))
    | some unit =>
      if v > 2 ^ 63 / unit then .error DurationError.invalid
      else
        let v1 := v * unit % 2 ^ 64
        let v2 := if f > 0 then (v1 + fractionNanos f unit scale) % 2 ^ 64 else v1
        if f > 0 ∧ v2 > 2 ^ 63 then .error DurationError.invalid
        else .ok (v2, us.2)

/-- One round of the loop `for s != ""` of `time.ParseDuration`: one term
`[0-9]*(\.[0-9]*)?[a-z]+` at the start of `s`, as its nanoseconds and the
text left after it. -/
def ParseDuration.term (s : List Char) : Except DurationError (Nat × List Char) :=
  match s with
  | [] => .error DurationError.invalid
  | c :: cs =>
    if !(c = '.' ∨ strconv.isDigit c) then .error DurationError.invalid
    else
      match leadingInt (c :: cs) 0 with
      | none => .error DurationError.invalid
      | some (v, s1) =>
        let pre : Bool := (c :: cs).length ≠ s1.length
        let fr := ParseDuration.fraction s1
        if !pre && !fr.2.2.2 then .error DurationError.invalid
        else ParseDuration.scaled v fr.1 fr.2.1 fr.2.2.1

/-- The loop `for s != ""` of `time.ParseDuration` with the sum `d` so far.
Every round consumes at least the unit of its term, so `fuel` of at least the
length of `s` is never used up (`ParseDuration.loop_fuel`). -/
def ParseDuration.loop : Nat → List Char → Nat → Except DurationError Nat
  | _, [], d => .ok d
  | 0, _ :: _, _ => .error DurationError.invalid
  | fuel + 1, c :: cs, d =>
    match ParseDuration.term (c :: cs) with
    | .error e => .error e
    | .ok (v, rest) =>
      let d1 := (d + v) % 2 ^ 64
      if d1 > 2 ^ 63 then .error DurationError.invalid
      else ParseDuration.loop fuel rest d1

/-- The `int64` with the bits of the integer `x`, modulo `2 ^ 64`. -/
def toInt64 (x : Int) : Int := (x + 2 ^ 63) % 2 ^ 64 - 2 ^ 63

/-- Go `time.ParseDuration(s)`: the duration in nanoseconds (an `int64`). -/
def ParseDuration (s : String) : Except DurationError Int :=
  let (neg, s1) : Bool × List Char :=
    match s.data with
    | c :: cs => if c = '-' ∨ c = '+' then (decide (c = '-'), cs) else (false, c :: cs)
    | [] => (false, [])
  if s1 = ['0'] then .ok 0
  else if s1 = [] then .error DurationError.invalid
  else
    match ParseDuration.loop s1.length s1 0 with
    | .error e => .error e
    | .ok d =>
      if neg then .ok (toInt64 (-(toInt64 d)))
      else if d > 2 ^ 63 - 1 then .error DurationError.invalid
      else .ok (toInt64 d)

end time

/-! ## `envv.go` -/

/-- The type argument `T` of the generic types of `envv.go`: the five types
the selectors of `basicEnvv` produce, and any other type. -/
inductive GoType
  | string
  | int
  | bool
  | float64
  | duration
  | other
  deriving DecidableEq, Repr

/-- The values of a Go type: `int` and `time.Duration` are integers, a
type outside the five has its zero value only. -/
@[reducible] def GoType.Value : GoType → Type
  | .string => String
  | .int => Int
  | .bool => Bool
  | .float64 => strconv.Float64
  | .duration => Int
  | .other => Unit

/-- Go `envv[T]`: `defaultValue` is `none` for the nil pointer. -/
structure envv (T : GoType) where
  name : String
  required : Bool
  defaultValue : Option T.Value

/-- Go `basicEnvv`. -/
structure basicEnvv where
  name : String

/-- Go `typedEnvv[T]`. -/
structure typedEnvv (T : GoType) where
  name : String

/-- Go `Get(name)`: a new basic env var instance for the given name. -/
def Get (name : String) : basicEnvv := { name := name }

/-- Go `basicEnvv.String()`. -/
def basicEnvv.String (e : basicEnvv) : typedEnvv GoType.string := { name := e.name }

/-- Go `basicEnvv.Int()`. -/
def basicEnvv.Int (e : basicEnvv) : typedEnvv GoType.int := { name := e.name }

/-- Go `basicEnvv.Bool()`. -/
def basicEnvv.Bool (e : basicEnvv) : typedEnvv GoType.bool := { name := e.name }

/-- Go `basicEnvv.Float64()`. -/
def basicEnvv.Float64 (e : basicEnvv) : typedEnvv GoType.float64 := { name := e.name }

/-- Go `basicEnvv.Duration()`. -/
def basicEnvv.Duration (e : basicEnvv) : typedEnvv GoType.duration := { name := e.name }

/-- Go `typedEnvv[T].Default(defaultValue)`. -/
def typedEnvv.Default {T : GoType} (e : typedEnvv T) (defaultValue : T.Value) : envv T :=
  { name := e.name, required := false, defaultValue := some defaultValue }

/-- Go `typedEnvv[T].Required()`. -/
def typedEnvv.Required {T : GoType} (e : typedEnvv T) : envv T :=
  { name := e.name, required := true, defaultValue := none }

/-- Go `typedEnvv[T].Optional()`. -/
def typedEnvv.Optional {T : GoType} (e : typedEnvv T) : envv T :=
  { name := e.name, required := false, defaultValue := none }

/-- The error a failed library parse hands to `fmt.Errorf` as `%w`. -/
inductive ParseCause
  | num (err : strconv.NumError)
  | duration (err : time.DurationError)
  deriving DecidableEq, Repr

/-- The values `envv.Parse` panics with:
* `requiredMissing name` is the string `"required env var is missing: " + name`;
* `parseFailed T value cause` is the error
  `fmt.Errorf("failed to parse <T> value %q: %w", value, cause)`;
* `unexpectedType name` is the string of the `default` case of the type switch. -/
inductive Panic
  | requiredMissing (name : String)
  | parseFailed (T : GoType) (value : String) (cause : ParseCause)
  | unexpectedType (name : String)
  deriving DecidableEq, Repr

/-- The type switch of `envv.Parse` (envv.go, lines 99-129) on the value
read from the environment. -/
def envv.parseValue : (T : GoType) → (name value : String) → Except Panic T.Value
  | .string, _, value => .ok value
  | .int, _, value =>
    match strconv.Atoi value with
    | (v, none) => .ok v
    | (_, some err) => .error (Panic.parseFailed GoType.int value (ParseCause.num err))
  | .bool, _, value =>
    match strconv.ParseBool value with
    | (v, none) => .ok v
    | (_, some err) => .error (Panic.parseFailed GoType.bool value (ParseCause.num err))
  | .float64, _, value =>
    match strconv.ParseFloat value with
    | (v, none) => .ok v
    | (_, some err) => .error (Panic.parseFailed GoType.float64 value (ParseCause.num err))
  | .duration, _, value =>
    match time.ParseDuration value with
    | .ok v => .ok v
    | .error err => .error (Panic.parseFailed GoType.duration value (ParseCause.duration err))
  | .other, name, _ => .error (Panic.unexpectedType name)

/-- Go `envv[T].Parse()`: reads and parses the env var according to its
type; a panic is the `error` result. -/
def envv.Parse {T : GoType} (e : envv T) (env : os.Store) : Except Panic T.Value :=
  let value := os.Getenv env e.name
  if value = "" ∧ e.required = true then .error (Panic.requiredMissing e.name)
  else
    match e.defaultValue with
    | some d => if value = "" then .ok d else envv.parseValue T e.name value
    | none => envv.parseValue T e.name value

/-! ## Declarations and stores used to state the properties -/

/-- The declarations the fluent API builds: `Get(name)`, then one of the five
type selectors, then one of the three presence configurators. -/
inductive envv.Fluent : {T : GoType} → envv T → Prop
  | stringDefault (name : String) (d : String) : envv.Fluent ((Get name).String.Default d)
  | stringRequired (name : String) : envv.Fluent (Get name).String.Required
  | stringOptional (name : String) : envv.Fluent (Get name).String.Optional
  | intDefault (name : String) (d : Int) : envv.Fluent ((Get name).Int.Default d)
  | intRequired (name : String) : envv.Fluent (Get name).Int.Required
  | intOptional (name : String) : envv.Fluent (Get name).Int.Optional
  | boolDefault (name : String) (d : Bool) : envv.Fluent ((Get name).Bool.Default d)
  | boolRequired (name : String) : envv.Fluent (Get name).Bool.Required
  | boolOptional (name : String) : envv.Fluent (Get name).Bool.Optional
  | float64Default (name : String) (d : strconv.Float64) :
      envv.Fluent ((Get name).Float64.Default d)
  | float64Required (name : String) : envv.Fluent (Get name).Float64.Required
  | float64Optional (name : String) : envv.Fluent (Get name).Float64.Optional
  | durationDefault (name : String) (d : Int) : envv.Fluent ((Get name).Duration.Default d)
  | durationRequired (name : String) : envv.Fluent (Get name).Duration.Required
  | durationOptional (name : String) : envv.Fluent (Get name).Duration.Optional

/-- Whether the library parser of the type accepts the value: any string is
a `string`, the other four types go through `strconv.Atoi`,
`strconv.ParseBool`, `strconv.ParseFloat` and `time.ParseDuration`. -/
def canParse : GoType → String → Bool
  | .string, _ => true
  | .int, value => (strconv.Atoi value).2.isNone
  | .bool, value => (strconv.ParseBool value).2.isNone
  | .float64, value => (strconv.ParseFloat value).2.isNone
  | .duration, value =>
    match time.ParseDuration value with
    | .ok _ => true
    | .error _ => false
  | .other, _ => false

/-- The environment with no variable set. -/
def emptyEnv : os.Store := fun _ => none

/-- The environment with the one variable `name` set to `value`. -/
def singleEnv (name value : String) : os.Store :=
  fun k => if k = name then some value else none

/-- The file system with one file, of the given text, at `path`. -/
def oneFile (path text : String) : FileSystem :=
  fun p => if p = path then .ok text else .error "open: no such file or directory"

/-- The assignment a line makes, in the words of the file format: none for a
line that begins with `#` and for a line without `=`; otherwise the key is
the text before the first `=` and the value all the text after it. -/
def assignmentOf (line : String) : Option (String × String) :=
  if line.data.head? = some '#' ∨ '=' ∉ line.data then none
  else
    some (String.mk (line.data.takeWhile (fun c => c != '=')),
      String.mk ((line.data.dropWhile (fun c => c != '=')).drop 1))

/-- The values that the assignment lines for the key `K` give it, in file
order. -/
def assignedValues (K : String) (lines : List String) : List String :=
  lines.filterMap fun line =>
    match assignmentOf line with
    | some (k, v) => if k = K then some v else none
    | none => none

/-- Go `time.Millisecond`, in nanoseconds. -/
def time.Millisecond : Int := 1000000

/-- Go `time.Minute`, in nanoseconds. -/
def time.Minute : Int := 60000000000

/-- The Required presence mode: `required` is set and there is no default. -/
def envv.isRequired {T : GoType} (e : envv T) : Prop :=
  e.required = true ∧ e.defaultValue = none

/-- The Optional presence mode: `required` is not set and there is no
default. -/
def envv.isOptional {T : GoType} (e : envv T) : Prop :=
  e.required = false ∧ e.defaultValue = none

/-- The DefaultValue presence mode: `required` is not set and a default is
present. -/
def envv.isDefaultValue {T : GoType} (e : envv T) : Prop :=
  e.required = false ∧ ∃ d, e.defaultValue = some d

/-- The values that take effect for the key `K`: those of its assignment
lines, in file order, whose pair `os.Setenv` accepts. -/
def acceptedValues (K : String) (lines : List String) : List String :=
  (assignedValues K lines).filter fun v => os.validSetenv K v

/-- The file system with three files. -/
def threeFiles (p1 t1 p2 t2 p3 t3 : String) : FileSystem :=
  fun p =>
    if p = p1 then .ok t1
    else if p = p2 then .ok t2
    else if p = p3 then .ok t3
    else .error "open: no such file or directory"

/-- The length in bytes of the UTF-8 encoding of a text. -/
def bufio.byteLen (data : List Char) : Nat :=
  (data.map Char.utf8Size).sum

/-- A list of pieces without its last piece when that one is empty. -/
def dropEmptyLast (pieces : List (List Char)) : List (List Char) :=
  if pieces.getLast? = some [] then pieces.dropLast else pieces

/-- The segments of a file text, in the words of the line format: the pieces
of the text that the newlines delimit, with the text after the last newline
as a final segment when it is not empty. -/
def segments (text : String) : List (List Char) :=
  dropEmptyLast (text.data.splitOn '\n')

/-- The lines of a file text, in the words of the line format: its segments,
each without one trailing carriage return. -/
def segmentLines (text : String) : List String :=
  (segments text).map fun seg => String.mk (bufio.dropCR seg)

/-- A file text with a line of 65536 bytes, the size of the scanner's buffer,
and the line `A=1` after it. -/
def longLineText : String :=
  String.mk (List.replicate 65536 'x' ++ '\n' :: "A=1".data)

/-- The number that the decimal digits `ds` denote when they follow digits
denoting `n`. -/
def decimalFrom : List Char → Nat → Nat
  | [], n => n
  | c :: cs, n => decimalFrom cs (n * 10 + (c.toNat - 48))

/-- The number that a run of decimal digits denotes. -/
def decimalValue (ds : List Char) : Nat := decimalFrom ds 0

/-- The integer that `v` denotes when `v` is an optional sign (`+` or `-`)
followed by one or more decimal digits, and `none` for any other `v`. -/
def signedDecimal (v : String) : Option Int :=
  match v.data with
  | [] => none
  | c :: cs =>
    let ds := if c = '+' ∨ c = '-' then cs else c :: cs
    if ds ≠ [] ∧ ds.all strconv.isDigit = true then
      some (if c = '-' then -(decimalValue ds : Int) else (decimalValue ds : Int))
    else none

/-- The line of a segment of a file text, in the words of the line format:
the segment without one trailing carriage return. -/
def lineOf (seg : List Char) : String :=
  String.mk (bufio.dropCR seg)

/-- A file text of one line of 65536 bytes, the size of the scanner's buffer,
with its newline. -/
def longLineOnly : String :=
  String.mk (List.replicate 65536 'x' ++ ['\n'])

/-- A file text with the line `A=1`, then a line of 65536 bytes, then the line
`A=2`. -/
def longLineBetween : String :=
  String.mk ("A=1".data ++ '\n' :: (List.replicate 65536 'x' ++ '\n' :: "A=2".data))

/-- Whether a character is a decimal digit or a period: the characters of the
magnitudes of a duration. -/
def time.isNumeric (c : Char) : Bool :=
  c == '.' || strconv.isDigit c

/-- A duration value without its one leading sign, `+` or `-`, if it has
one. -/
def time.afterSign (v : String) : List Char :=
  match v.data with
  | c :: cs => if c = '-' ∨ c = '+' then cs else c :: cs
  | [] => []

/-- The units of a text, given the characters `cur` (in reverse) of the unit
being read: a unit ends at a digit, at a period and at the end of the text. -/
def time.unitRunsFrom : List Char → List Char → List String
  | [], cur => if cur = [] then [] else [String.mk cur.reverse]
  | c :: cs, cur =>
    if time.isNumeric c then
      if cur = [] then time.unitRunsFrom cs []
      else String.mk cur.reverse :: time.unitRunsFrom cs []
    else time.unitRunsFrom cs (c :: cur)

/-- The units that a text holds, in the words of the duration format: its
longest runs of characters that are neither decimal digits nor periods. -/
def time.unitRuns (s : List Char) : List String :=
  time.unitRunsFrom s []

/-! ## The helper loops end -/

/-- The loop `strconv.log2From` does not run out of fuel: it computes the
binary logarithm. -/
theorem strconv.log2From_eq (fuel n : Nat) (h : n ≤ fuel) :
    strconv.log2From fuel n = Nat.log2 n := by
  induction fuel generalizing n with
  | zero =>
    have h0 : n = 0 := Nat.le_zero.mp h
    subst h0
    rw [Nat.log2]
    rfl
  | succ fuel ih =>
    rw [strconv.log2From, Nat.log2]
    by_cases h2 : n < 2
    · rw [if_pos h2, if_neg (by omega)]
    · rw [if_neg h2, if_pos (by omega), ih (n / 2) (by omega)]

/-! ## The loop of `time.ParseDuration` ends -/

/-- What `time.leadingInt` leaves is no longer than what it was given. -/
theorem time.leadingInt_length (s : List Char) (x v : Nat) (r : List Char)
    (h : time.leadingInt s x = some (v, r)) : r.length ≤ s.length := by
  induction s generalizing x with
  | nil =>
    simp only [time.leadingInt, Option.some.injEq, Prod.mk.injEq] at h
    rw [← h.2]
  | cons c cs ih =>
    unfold time.leadingInt at h
    split at h
    · simp only [Option.some.injEq, Prod.mk.injEq] at h
      rw [← h.2]
    · split at h
      · exact nomatch h
      · simp only at h
        split at h
        · exact nomatch h
        · exact Nat.le_succ_of_le (ih _ h)

/-- What `time.leadingFraction` leaves is no longer than what it was given. -/
theorem time.leadingFraction_length (s : List Char) (x : Nat)
    (scale : strconv.NonNegFloat64) (o : Bool) :
    (time.leadingFraction s x scale o).2.2.length ≤ s.length := by
  induction s generalizing x scale o with
  | nil => simp [time.leadingFraction]
  | cons c cs ih =>
    unfold time.leadingFraction
    split
    · simp
    · split
      · exact Nat.le_succ_of_le (ih _ _ _)
      · split
        · exact Nat.le_succ_of_le (ih _ _ _)
        · simp only
          split
          · exact Nat.le_succ_of_le (ih _ _ _)
          · exact Nat.le_succ_of_le (ih _ _ _)

/-- The unit and the text after it are together the text given. -/
theorem time.unitSpan_length (s : List Char) :
    (time.unitSpan s).1.length + (time.unitSpan s).2.length = s.length := by
  induction s with
  | nil => simp [time.unitSpan]
  | cons c cs ih =>
    unfold time.unitSpan
    split
    · simp
    · simp only [List.cons, List.length_cons]
      omega

/-- What the fraction of a term leaves is no longer than what it was given. -/
theorem time.ParseDuration.fraction_length (s : List Char) :
    (time.ParseDuration.fraction s).2.2.1.length ≤ s.length := by
  unfold time.ParseDuration.fraction
  split
  · split
    · exact Nat.le_succ_of_le (time.leadingFraction_length _ 0 _ false)
    · exact Nat.le_refl _
  · exact Nat.le_refl _

/-- The unit of a term is at least one byte long. -/
theorem time.ParseDuration.scaled_length (v f : Nat) (scale : strconv.NonNegFloat64)
    (s : List Char) (x : Nat)
    (r : List Char) (h : time.ParseDuration.scaled v f scale s = .ok (x, r)) :
    r.length < s.length := by
  have hlen := time.unitSpan_length s
  unfold time.ParseDuration.scaled at h
  simp only at h
  split at h
  · exact nomatch h
  · rename_i hu
    split at h
    · exact nomatch h
    · split at h
      · exact nomatch h
      · have hr : (time.unitSpan s).2 = r := by
          repeat' split at h
          all_goals first | exact (Prod.mk.inj (Except.ok.inj h)).2 | cases h
        rw [← hr]
        omega

/-- A term of a duration is at least one byte long. -/
theorem time.ParseDuration.term_length (s : List Char) (v : Nat) (r : List Char)
    (h : time.ParseDuration.term s = .ok (v, r)) : r.length < s.length := by
  unfold time.ParseDuration.term at h
  split at h
  · exact nomatch h
  · rename_i c cs
    split at h
    · exact nomatch h
    · split at h
      · exact nomatch h
      · rename_i v0 s1 hint
        have h1 := time.leadingInt_length _ _ _ _ hint
        have h2 := time.ParseDuration.fraction_length s1
        simp only at h
        split at h
        · exact nomatch h
        · have h3 := time.ParseDuration.scaled_length _ _ _ _ _ _ h
          omega

/-- The loop of `time.ParseDuration` does not run out of fuel: with any fuel
of at least the length of the text it gives what the length itself gives. -/
theorem time.ParseDuration.loop_fuel (fuel : Nat) (s : List Char) (d : Nat)
    (h : s.length ≤ fuel) :
    time.ParseDuration.loop fuel s d = time.ParseDuration.loop s.length s d := by
  have key : ∀ (n f1 f2 : Nat) (s : List Char) (d : Nat), s.length ≤ n → s.length ≤ f1 →
      s.length ≤ f2 → time.ParseDuration.loop f1 s d = time.ParseDuration.loop f2 s d := by
    intro n
    induction n with
    | zero =>
      intro f1 f2 s d hn _ _
      have hs : s = [] := List.length_eq_zero.mp (Nat.le_zero.mp hn)
      subst hs
      cases f1 <;> cases f2 <;> rfl
    | succ n ih =>
      intro f1 f2 s d hn h1 h2
      cases s with
      | nil => cases f1 <;> cases f2 <;> rfl
      | cons c cs =>
        cases f1 with
        | zero => exact absurd h1 (by simp)
        | succ f1 =>
          cases f2 with
          | zero => exact absurd h2 (by simp)
          | succ f2 =>
            simp only [time.ParseDuration.loop]
            cases ht : time.ParseDuration.term (c :: cs) with
            | error e => rfl
            | ok vr =>
              obtain ⟨v, r⟩ := vr
              have hr := time.ParseDuration.term_length _ _ _ ht
              simp only [List.length_cons] at hr hn h1 h2
              simp only
              split
              · rfl
              · exact ih f1 f2 r _ (by omega) (by omega) (by omega)
  exact key fuel fuel s.length s d h h (Nat.le_refl _)

/-! ## Properties of `envv.Parse` -/

/-- C1. When the value of the variable in the environment is empty (the
variable is unset or set to `""`), `Get(name).T().Default(d).Parse()` returns
exactly `d` for each of the five types and every `d`; it does so although the
type switch fails on the empty string for every type but `string`. -/
theorem parse_default_of_empty (env : os.Store) (name : String)
    (h : os.Getenv env name = "") :
    (∀ d, ((Get name).String.Default d).Parse env = .ok d) ∧
    (∀ d, ((Get name).Int.Default d).Parse env = .ok d) ∧
    (∀ d, ((Get name).Bool.Default d).Parse env = .ok d) ∧
    (∀ d, ((Get name).Float64.Default d).Parse env = .ok d) ∧
    (∀ d, ((Get name).Duration.Default d).Parse env = .ok d) ∧
    (∀ T, T ≠ GoType.string → ∀ v, envv.parseValue T name "" ≠ .ok v) := by
  refine ⟨?_, ?_, ?_, ?_, ?_, ?_⟩
  · intro d; simp [envv.Parse, typedEnvv.Default, basicEnvv.String, Get, h]
  · intro d; simp [envv.Parse, typedEnvv.Default, basicEnvv.Int, Get, h]
  · intro d; simp [envv.Parse, typedEnvv.Default, basicEnvv.Bool, Get, h]
  · intro d; simp [envv.Parse, typedEnvv.Default, basicEnvv.Float64, Get, h]
  · intro d; simp [envv.Parse, typedEnvv.Default, basicEnvv.Duration, Get, h]
  · intro T hT v
    cases T with
    | string => exact absurd rfl hT
    | int => exact fun hv => nomatch hv
    | bool => exact fun hv => nomatch hv
    | float64 => exact fun hv => nomatch hv
    | duration => exact fun hv => nomatch hv
    | other => exact fun hv => nomatch hv

/-- C1, at a variable that is unset: `Get("X").Int().Default(7).Parse()` is 7. -/
theorem parse_default_of_empty_witness :
    os.Getenv emptyEnv "X" = "" ∧ ((Get "X").Int.Default 7).Parse emptyEnv = .ok 7 :=
  ⟨by decide, (parse_default_of_empty emptyEnv "X" (by decide)).2.1 7⟩

/-- C2. When the value of the variable in the environment is empty,
`Get(name).T().Required().Parse()` panics with the missing-required-variable
message for each of the five types, `string` included. -/
theorem parse_required_of_empty (env : os.Store) (name : String)
    (h : os.Getenv env name = "") :
    (Get name).String.Required.Parse env = .error (Panic.requiredMissing name) ∧
    (Get name).Int.Required.Parse env = .error (Panic.requiredMissing name) ∧
    (Get name).Bool.Required.Parse env = .error (Panic.requiredMissing name) ∧
    (Get name).Float64.Required.Parse env = .error (Panic.requiredMissing name) ∧
    (Get name).Duration.Required.Parse env = .error (Panic.requiredMissing name) := by
  refine ⟨?_, ?_, ?_, ?_, ?_⟩
  · simp [envv.Parse, typedEnvv.Required, basicEnvv.String, Get, h]
  · simp [envv.Parse, typedEnvv.Required, basicEnvv.Int, Get, h]
  · simp [envv.Parse, typedEnvv.Required, basicEnvv.Bool, Get, h]
  · simp [envv.Parse, typedEnvv.Required, basicEnvv.Float64, Get, h]
  · simp [envv.Parse, typedEnvv.Required, basicEnvv.Duration, Get, h]

/-- C2, at a variable set to the empty string:
`Get("X").String().Required().Parse()` panics. -/
theorem parse_required_of_empty_witness :
    os.Getenv (singleEnv "X" "") "X" = "" ∧
    (Get "X").String.Required.Parse (singleEnv "X" "") = .error (Panic.requiredMissing "X") :=
  ⟨by decide, (parse_required_of_empty (singleEnv "X" "") "X" (by decide)).1⟩

/-- With a non-empty value in the environment a default is not looked at:
`Default(d)` and `Optional()` parse alike. -/
theorem parse_default_eq_optional {T : GoType} (t : typedEnvv T) (d : T.Value)
    (env : os.Store) (h : os.Getenv env t.name ≠ "") :
    (t.Default d).Parse env = t.Optional.Parse env := by
  simp [envv.Parse, typedEnvv.Default, typedEnvv.Optional, h]

/-- C3. An explicit value overrides the default: when the value of the
variable in the environment is not empty, `Get(name).T().Default(d).Parse()`
has the outcome of `Get(name).T().Optional().Parse()` (the same value or the
same panic) for each of the five types and every `d`. -/
theorem parse_default_overridden (env : os.Store) (name : String)
    (h : os.Getenv env name ≠ "") :
    (∀ d, ((Get name).String.Default d).Parse env = (Get name).String.Optional.Parse env) ∧
    (∀ d, ((Get name).Int.Default d).Parse env = (Get name).Int.Optional.Parse env) ∧
    (∀ d, ((Get name).Bool.Default d).Parse env = (Get name).Bool.Optional.Parse env) ∧
    (∀ d, ((Get name).Float64.Default d).Parse env = (Get name).Float64.Optional.Parse env) ∧
    (∀ d, ((Get name).Duration.Default d).Parse env
      = (Get name).Duration.Optional.Parse env) :=
  ⟨fun d => parse_default_eq_optional (Get name).String d env h,
   fun d => parse_default_eq_optional (Get name).Int d env h,
   fun d => parse_default_eq_optional (Get name).Bool d env h,
   fun d => parse_default_eq_optional (Get name).Float64 d env h,
   fun d => parse_default_eq_optional (Get name).Duration d env h⟩

/-- C3, at `X="false"`: `Get("X").Bool().Default(true).Parse()` is what
`Optional()` gives, which is `false`. -/
theorem parse_default_overridden_witness :
    os.Getenv (singleEnv "X" "false") "X" ≠ "" ∧
    ((Get "X").Bool.Default true).Parse (singleEnv "X" "false")
      = (Get "X").Bool.Optional.Parse (singleEnv "X" "false") ∧
    (Get "X").Bool.Optional.Parse (singleEnv "X" "false") = .ok false :=
  ⟨by decide, (parse_default_overridden (singleEnv "X" "false") "X" (by decide)).2.2.1 true,
   by decide⟩

/-- The type switch of `Parse` on the empty string. -/
theorem parseValue_empty (name : String) :
    envv.parseValue GoType.string name "" = .ok "" ∧
    envv.parseValue GoType.int name ""
      = .error (Panic.parseFailed GoType.int ""
          (ParseCause.num (strconv.syntaxError "Atoi" ""))) ∧
    envv.parseValue GoType.bool name ""
      = .error (Panic.parseFailed GoType.bool ""
          (ParseCause.num (strconv.syntaxError "ParseBool" ""))) ∧
    envv.parseValue GoType.float64 name ""
      = .error (Panic.parseFailed GoType.float64 ""
          (ParseCause.num (strconv.syntaxError "ParseFloat" ""))) ∧
    envv.parseValue GoType.duration name ""
      = .error (Panic.parseFailed GoType.duration ""
          (ParseCause.duration time.DurationError.invalid)) :=
  ⟨rfl, rfl, rfl, rfl, rfl⟩

/-- With neither `required` nor a default, `Parse` is the type switch on the
value read from the environment. -/
theorem parse_optional_eq {T : GoType} (t : typedEnvv T) (env : os.Store) :
    t.Optional.Parse env = envv.parseValue T t.name (os.Getenv env t.name) := by
  simp [envv.Parse, typedEnvv.Optional]

/-- C4. In optional mode an empty value goes to the parser of the type:
`String` returns `""`, while `Int`, `Bool`, `Float64` and `Duration` panic
with the parse error of the empty string; and with `X="42"`,
`Get("X").Int().Optional().Parse()` returns 42. -/
theorem parse_optional_of_empty (env : os.Store) (name : String)
    (h : os.Getenv env name = "") :
    (Get name).String.Optional.Parse env = .ok "" ∧
    (Get name).Int.Optional.Parse env
      = .error (Panic.parseFailed GoType.int ""
          (ParseCause.num (strconv.syntaxError "Atoi" ""))) ∧
    (Get name).Bool.Optional.Parse env
      = .error (Panic.parseFailed GoType.bool ""
          (ParseCause.num (strconv.syntaxError "ParseBool" ""))) ∧
    (Get name).Float64.Optional.Parse env
      = .error (Panic.parseFailed GoType.float64 ""
          (ParseCause.num (strconv.syntaxError "ParseFloat" ""))) ∧
    (Get name).Duration.Optional.Parse env
      = .error (Panic.parseFailed GoType.duration ""
          (ParseCause.duration time.DurationError.invalid)) ∧
    (∀ env42 : os.Store, os.Getenv env42 "X" = "42" →
      (Get "X").Int.Optional.Parse env42 = .ok 42) := by
  have hs : (Get name).String.name = name := rfl
  have hi : (Get name).Int.name = name := rfl
  have hb : (Get name).Bool.name = name := rfl
  have hf : (Get name).Float64.name = name := rfl
  have hd : (Get name).Duration.name = name := rfl
  refine ⟨?_, ?_, ?_, ?_, ?_, ?_⟩
  · rw [parse_optional_eq, hs, h]; exact (parseValue_empty name).1
  · rw [parse_optional_eq, hi, h]; exact (parseValue_empty name).2.1
  · rw [parse_optional_eq, hb, h]; exact (parseValue_empty name).2.2.1
  · rw [parse_optional_eq, hf, h]; exact (parseValue_empty name).2.2.2.1
  · rw [parse_optional_eq, hd, h]; exact (parseValue_empty name).2.2.2.2
  · intro env42 h42
    have hx : (Get "X").Int.name = "X" := rfl
    rw [parse_optional_eq, hx, h42]
    rfl

/-- C4, at a variable that is unset and at `X="42"`. -/
theorem parse_optional_of_empty_witness :
    os.Getenv emptyEnv "Y" = "" ∧
    (Get "Y").String.Optional.Parse emptyEnv = .ok "" ∧
    (Get "Y").Int.Optional.Parse emptyEnv
      = .error (Panic.parseFailed GoType.int ""
          (ParseCause.num (strconv.syntaxError "Atoi" ""))) ∧
    os.Getenv (singleEnv "X" "42") "X" = "42" ∧
    (Get "X").Int.Optional.Parse (singleEnv "X" "42") = .ok 42 :=
  ⟨by decide, (parse_optional_of_empty emptyEnv "Y" (by decide)).1,
   (parse_optional_of_empty emptyEnv "Y" (by decide)).2.1, by decide,
   (parse_optional_of_empty emptyEnv "Y" (by decide)).2.2.2.2.2 (singleEnv "X" "42")
     (by decide)⟩

/-- C5. With `X` unset, `Get("X").T().Optional().Parse()` returns for `String`
only: for `Int`, `Bool`, `Float64` and `Duration` it panics, against the
comment on `Optional` ("allowing it to be unset without causing a panic"). -/
theorem parse_optional_unset_panics :
    emptyEnv "X" = none ∧
    (Get "X").String.Optional.Parse emptyEnv = .ok "" ∧
    (Get "X").Int.Optional.Parse emptyEnv
      = .error (Panic.parseFailed GoType.int ""
          (ParseCause.num (strconv.syntaxError "Atoi" ""))) ∧
    (Get "X").Bool.Optional.Parse emptyEnv
      = .error (Panic.parseFailed GoType.bool ""
          (ParseCause.num (strconv.syntaxError "ParseBool" ""))) ∧
    (Get "X").Float64.Optional.Parse emptyEnv
      = .error (Panic.parseFailed GoType.float64 ""
          (ParseCause.num (strconv.syntaxError "ParseFloat" ""))) ∧
    (Get "X").Duration.Optional.Parse emptyEnv
      = .error (Panic.parseFailed GoType.duration ""
          (ParseCause.duration time.DurationError.invalid)) := by
  decide

/-- A declaration built through the fluent API has one of the five types. -/
theorem envv.Fluent.ne_other {T : GoType} {e : envv T} (h : e.Fluent) : T ≠ GoType.other := by
  cases h <;> exact fun hT => nomatch hT

/-- For the five types the type switch of `Parse` panics exactly on the
values the library parser of the type rejects. -/
theorem parseValue_error_iff {T : GoType} (hT : T ≠ GoType.other) (name value : String) :
    (∃ p, envv.parseValue T name value = .error p) ↔ canParse T value = false := by
  cases T with
  | string => simp [envv.parseValue, canParse]
  | int =>
    rcases h : strconv.Atoi value with ⟨v, _ | err⟩ <;> simp [envv.parseValue, canParse, h]
  | bool =>
    rcases h : strconv.ParseBool value with ⟨v, _ | err⟩ <;> simp [envv.parseValue, canParse, h]
  | float64 =>
    rcases h : strconv.ParseFloat value with ⟨v, _ | err⟩ <;>
      simp [envv.parseValue, canParse, h]
  | duration =>
    rcases h : time.ParseDuration value with err | v <;> simp [envv.parseValue, canParse, h]
  | other => exact absurd rfl hT

/-- A result of `Parse` is a value or a panic. -/
theorem except_ok_of_not_error {ε α : Type} (r : Except ε α) (h : ¬ ∃ p, r = .error p) :
    ∃ v, r = .ok v := by
  cases r with
  | error p => exact absurd ⟨p, rfl⟩ h
  | ok v => exact ⟨v, rfl⟩

/-- When `Parse` panics, for a declaration of one of the five types. -/
theorem parse_error_iff {T : GoType} (hT : T ≠ GoType.other) (e : envv T) (env : os.Store) :
    (∃ p, e.Parse env = .error p) ↔
      (e.required = true ∧ os.Getenv env e.name = "") ∨
      (¬ (os.Getenv env e.name = "" ∧ e.defaultValue.isSome = true) ∧
        canParse T (os.Getenv env e.name) = false) := by
  have hpv := parseValue_error_iff hT e.name (os.Getenv env e.name)
  rcases e with ⟨name, required, _ | d⟩
  · by_cases hv : os.Getenv env name = "" <;> cases required <;>
      simp_all [envv.Parse]
  · by_cases hv : os.Getenv env name = "" <;> cases required <;>
      simp_all [envv.Parse]

/-- C6, as the comment on `Parse` has it, fails at
`Get("X").Int().Default(7)` with `X` unset: the empty value cannot be parsed
into an `int`, the variable is not required, and `Parse` returns 7. -/
theorem parse_panic_conditions_counterexample :
    envv.Fluent ((Get "X").Int.Default 7) ∧
    ¬ ((∃ p, ((Get "X").Int.Default 7).Parse emptyEnv = .error p) ↔
        ((((Get "X").Int.Default 7).required = true ∧
            os.Getenv emptyEnv ((Get "X").Int.Default 7).name = "") ∨
          canParse GoType.int (os.Getenv emptyEnv ((Get "X").Int.Default 7).name) = false)) := by
  refine ⟨envv.Fluent.intDefault "X" 7, fun h => ?_⟩
  have h7 : ((Get "X").Int.Default 7).Parse emptyEnv = .ok 7 := by decide
  obtain ⟨p, hp⟩ := h.mpr (Or.inr (by decide))
  rw [h7] at hp
  exact nomatch hp

/-- C6, amended. For every declaration built through the fluent API and
every environment, `Parse` panics exactly when (a) the variable is required
and its value is empty, or (b) the value cannot be parsed into the declared
type and is not an empty value that a default stands in for; in every other
case it returns a value. -/
theorem parse_panic_conditions {T : GoType} (e : envv T) (env : os.Store)
    (h : e.Fluent) :
    ((∃ p, e.Parse env = .error p) ↔
      (e.required = true ∧ os.Getenv env e.name = "") ∨
      (¬ (os.Getenv env e.name = "" ∧ e.defaultValue.isSome = true) ∧
        canParse T (os.Getenv env e.name) = false)) ∧
    (¬ ((e.required = true ∧ os.Getenv env e.name = "") ∨
        (¬ (os.Getenv env e.name = "" ∧ e.defaultValue.isSome = true) ∧
          canParse T (os.Getenv env e.name) = false)) →
      ∃ v, e.Parse env = .ok v) :=
  ⟨parse_error_iff h.ne_other e env,
   fun hn => except_ok_of_not_error _ (fun hp => hn ((parse_error_iff h.ne_other e env).mp hp))⟩

/-- C6, amended, at `Get("X").Bool().Optional()` with `X="maybe"`: the value
is not a boolean literal, and `Parse` panics. -/
theorem parse_panic_conditions_witness :
    envv.Fluent (Get "X").Bool.Optional ∧
    canParse GoType.bool (os.Getenv (singleEnv "X" "maybe") "X") = false ∧
    ∃ p, (Get "X").Bool.Optional.Parse (singleEnv "X" "maybe") = .error p :=
  ⟨envv.Fluent.boolOptional "X", by decide,
   (parse_panic_conditions (Get "X").Bool.Optional (singleEnv "X" "maybe")
      (envv.Fluent.boolOptional "X")).1.mpr (Or.inr ⟨by decide, by decide⟩)⟩

/-! ## Properties of the environment and of `LoadFile` -/

/-- A successful `os.Setenv` has a non-empty key and stores the value. -/
theorem os.Setenv_eq_some {env env1 : os.Store} {key value : String}
    (h : os.Setenv env key value = some env1) :
    key ≠ "" ∧ env1 = fun k => if k = key then some value else env k := by
  unfold os.Setenv at h
  split at h
  · rename_i hv
    refine ⟨?_, (Option.some.inj h).symm⟩
    rintro rfl
    simp [os.validSetenv] at hv
  · exact nomatch h

/-- C7, as stated, fails where `os.Setenv` refuses the pair: a value with a
NUL byte, or the empty name.  The variable is then not set, and
`Get(name).String().Optional().Parse()` returns `""`. -/
theorem string_round_trip_counterexample :
    os.Setenv emptyEnv "X" "a\x00b" = none ∧
    (Get "X").String.Optional.Parse ((os.Setenv emptyEnv "X" "a\x00b").getD emptyEnv)
      ≠ .ok "a\x00b" ∧
    os.Setenv emptyEnv "" "a" = none ∧
    (Get "").String.Optional.Parse ((os.Setenv emptyEnv "" "a").getD emptyEnv) ≠ .ok "a" := by
  refine ⟨rfl, ?_, rfl, ?_⟩ <;> decide

/-- C7, amended. When `os.Setenv(name, v)` succeeds (the name is not empty
and holds no `=` and no NUL byte, `v` holds no NUL byte), then in the
environment it leaves `Get(name).String().Optional().Parse()` returns `v`
unchanged, and so does `Required()` when `v` is not empty. -/
theorem string_round_trip (env env1 : os.Store) (name v : String)
    (h : os.Setenv env name v = some env1) :
    (Get name).String.Optional.Parse env1 = .ok v ∧
    (v ≠ "" → (Get name).String.Required.Parse env1 = .ok v) := by
  obtain ⟨hne, rfl⟩ := os.Setenv_eq_some h
  have hget : os.Getenv (fun k => if k = name then some v else env k) name = v := by
    simp [os.Getenv, os.LookupEnv, hne]
  constructor
  · simp [envv.Parse, typedEnvv.Optional, basicEnvv.String, Get, hget, envv.parseValue]
  · intro hv
    simp [envv.Parse, typedEnvv.Required, basicEnvv.String, Get, hget, envv.parseValue, hv]

/-- C7, amended, at `TEST_STRING=" a = b "`: spaces and `=` come back as
they were written. -/
theorem string_round_trip_witness :
    os.Setenv emptyEnv "TEST_STRING" " a = b " = some (singleEnv "TEST_STRING" " a = b ") ∧
    (Get "TEST_STRING").String.Optional.Parse (singleEnv "TEST_STRING" " a = b ")
      = .ok " a = b " :=
  ⟨rfl,
   (string_round_trip emptyEnv (singleEnv "TEST_STRING" " a = b ") "TEST_STRING" " a = b "
      rfl).1⟩

/-- The cut at the first separator is the text before it and the text after
it. -/
theorem strings.cutAt_eq (sep : Char) (s : List Char) :
    strings.cutAt sep s =
      if sep ∈ s then
        some (s.takeWhile (fun c => c != sep), (s.dropWhile (fun c => c != sep)).drop 1)
      else none := by
  induction s with
  | nil => simp [strings.cutAt]
  | cons c cs ih =>
    by_cases hc : c = sep
    · simp [strings.cutAt, hc]
    · have hc2 : ¬ sep = c := fun h => hc h.symm
      by_cases hm : sep ∈ cs
      · simp [strings.cutAt, hc, hc2, ih, hm]
      · simp [strings.cutAt, hc, hc2, ih, hm]

/-- The test `strings.HasPrefix(line, "#")` looks at the first byte. -/
theorem strings.HasPrefix_hash (line : String) :
    strings.HasPrefix line "#" = true ↔ line.data.head? = some '#' := by
  rcases line with ⟨_ | ⟨c, cs⟩⟩
  · decide
  · show List.isPrefixOf ['#'] (c :: cs) = true ↔ (c :: cs).head? = some '#'
    simp only [List.isPrefixOf, List.head?_cons, Option.some.injEq, Bool.and_true, beq_iff_eq]
    exact eq_comm

/-- What one round of the loop of `LoadFile` does to the environment: an
assignment line calls `os.Setenv`, any other line leaves it alone. -/
theorem LoadFile.step_env (w : World) (line : String) :
    (LoadFile.step w line).env =
      match assignmentOf line with
      | some (k, v) => (os.Setenv w.env k v).getD w.env
      | none => w.env := by
  unfold LoadFile.step assignmentOf
  by_cases hp : strings.HasPrefix line "#" = true
  · have hh := (strings.HasPrefix_hash line).mp hp
    simp [hp, hh]
  · have hh : ¬ line.data.head? = some '#' := fun h => hp ((strings.HasPrefix_hash line).mpr h)
    by_cases hm : '=' ∈ line.data
    · simp only [hp, hh, hm, strings.SplitN, strings.splitChars, strings.cutAt_eq]
      simp
      cases os.Setenv w.env _ _ <;> rfl
    · simp only [hp, hh, hm, strings.SplitN, strings.splitChars, strings.cutAt_eq]
      simp

/-- The loop of `LoadFile` over two runs of lines is the loop over the second
run from where the first one ends. -/
theorem LoadFile.loop_append (w : World) (a b : List String) :
    LoadFile.loop w (a ++ b) = LoadFile.loop (LoadFile.loop w a) b := by
  simp [LoadFile.loop, List.foldl_append]

/-- The environment the loop of `LoadFile` leaves depends on the environment
it starts from, not on the log. -/
theorem LoadFile.loop_env_congr (lines : List String) (w1 w2 : World) (h : w1.env = w2.env) :
    (LoadFile.loop w1 lines).env = (LoadFile.loop w2 lines).env := by
  induction lines generalizing w1 w2 with
  | nil => exact h
  | cons l ls ih =>
    apply ih
    rw [LoadFile.step_env, LoadFile.step_env, h]

/-- A line that begins with `#` or holds no `=` makes no assignment. -/
theorem assignmentOf_eq_none {line : String}
    (h : strings.HasPrefix line "#" = true ∨ '=' ∉ line.data) : assignmentOf line = none := by
  rcases h with h | h
  · simp [assignmentOf, (strings.HasPrefix_hash line).mp h]
  · simp [assignmentOf, h]

/-- The line of an assignment is the key, `=`, and the value; it does not
begin with `#` and its key holds no `=`. -/
theorem assignmentOf_eq_some {line k v : String} (h : assignmentOf line = some (k, v)) :
    line = k ++ "=" ++ v ∧ strings.HasPrefix line "#" = false ∧ '=' ∉ k.data := by
  unfold assignmentOf at h
  split at h
  · exact nomatch h
  · rename_i hc
    rw [not_or, not_not] at hc
    obtain ⟨hh, hm⟩ := hc
    have hkv := Prod.mk.inj (Option.some.inj h)
    have hk : k.data = line.data.takeWhile (fun c => c != '=') := by rw [← hkv.1]
    have hv : v.data = (line.data.dropWhile (fun c => c != '=')).drop 1 := by rw [← hkv.2]
    have hd : line.data.dropWhile (fun c => c != '=')
        = '=' :: (line.data.dropWhile (fun c => c != '=')).drop 1 := by
      generalize line.data = l at hm
      induction l with
      | nil => exact absurd hm (List.not_mem_nil _)
      | cons c cs ih =>
        by_cases hc : c = '='
        · simp [hc]
        · have hm2 : '=' ∈ cs := by
            rcases List.mem_cons.mp hm with h1 | h1
            · exact absurd h1.symm hc
            · exact h1
          simpa [hc] using ih hm2
    refine ⟨?_, ?_, ?_⟩
    · apply String.ext
      have he : ("=" : String).data = ['='] := rfl
      rw [String.data_append, String.data_append, he, hk, hv, List.append_assoc,
        List.singleton_append, ← hd, List.takeWhile_append_dropWhile]
    · cases hp : strings.HasPrefix line "#"
      · rfl
      · exact absurd ((strings.HasPrefix_hash line).mp hp) hh
    · rw [hk]
      intro hmem
      have := List.mem_takeWhile_imp hmem
      simp at this

/-- A line `KEY=VALUE` whose key holds no `=` and that does not begin with
`#` assigns the value to the key. -/
theorem assignmentOf_append {key value : String} (hkey : '=' ∉ key.data)
    (hc : strings.HasPrefix (key ++ "=" ++ value) "#" = false) :
    assignmentOf (key ++ "=" ++ value) = some (key, value) := by
  have he : ("=" : String).data = ['='] := rfl
  have hdata : (key ++ "=" ++ value).data = key.data ++ '=' :: value.data := by
    rw [String.data_append, String.data_append, he, List.append_assoc, List.singleton_append]
  have hh : ¬ (key ++ "=" ++ value).data.head? = some '#' := by
    intro h
    rw [(strings.HasPrefix_hash _).mpr h] at hc
    exact nomatch hc
  have hm : '=' ∈ (key ++ "=" ++ value).data := by rw [hdata]; simp
  have htd : ∀ (a b : List Char), '=' ∉ a →
      (a ++ '=' :: b).takeWhile (fun c => c != '=') = a ∧
      (a ++ '=' :: b).dropWhile (fun c => c != '=') = '=' :: b := by
    intro a b ha
    induction a with
    | nil => simp
    | cons c cs ih =>
      have hc1 : c ≠ '=' := fun h => ha (h ▸ List.mem_cons_self _ _)
      have ih2 := ih (fun h => ha (List.mem_cons_of_mem _ h))
      simp [hc1, ih2.1, ih2.2]
  obtain ⟨ht, hd⟩ := htd key.data value.data hkey
  unfold assignmentOf
  rw [if_neg (by rw [not_or, not_not]; exact ⟨hh, hm⟩), hdata, ht, hd]
  rfl

/-- A refused or foreign `os.Setenv` does not touch the variable `K`. -/
theorem os.Setenv_getD_of_ne (env : os.Store) {k K : String} (v : String) (h : k ≠ K) :
    (os.Setenv env k v).getD env K = env K := by
  unfold os.Setenv
  split
  · have hK : ¬ K = k := fun e => h e.symm
    simp [hK]
  · rfl

/-- An accepted `os.Setenv` stores the value under the key. -/
theorem os.Setenv_getD_self (env : os.Store) {K v : String} (h : os.validSetenv K v = true) :
    (os.Setenv env K v).getD env K = some v := by
  simp [os.Setenv, h]

/-- A key that `os.Setenv` accepts is not empty, so `os.Getenv` reads the
environment at it. -/
theorem os.Getenv_of_valid (env : os.Store) {K v w : String}
    (h : os.validSetenv K v = true) (hK : env K = some w) : os.Getenv env K = w := by
  have hne : K ≠ "" := by
    rintro rfl
    simp [os.validSetenv] at h
  simp [os.Getenv, os.LookupEnv, hne, hK]

/-- The values assigned to a key over two runs of lines. -/
theorem assignedValues_append (K : String) (a b : List String) :
    assignedValues K (a ++ b) = assignedValues K a ++ assignedValues K b := by
  simp [assignedValues, List.filterMap_append]

/-- After the loop of `LoadFile`, a key holds the value of its last
assignment line, when `os.Setenv` accepts that assignment. -/
theorem LoadFile.loop_env_last (lines : List String) (w : World) (K v : String)
    (hlast : (assignedValues K lines).getLast? = some v)
    (hvalid : os.validSetenv K v = true) :
    (LoadFile.loop w lines).env K = some v := by
  induction lines using List.reverseRecOn with
  | nil => exact nomatch hlast
  | append_singleton init l ih =>
    rw [LoadFile.loop_append]
    show (LoadFile.step (LoadFile.loop w init) l).env K = some v
    rw [LoadFile.step_env]
    rw [assignedValues_append] at hlast
    cases hA : assignmentOf l with
    | none =>
      have h0 : assignedValues K [l] = [] := by simp [assignedValues, hA]
      rw [h0, List.append_nil] at hlast
      exact ih hlast
    | some kv =>
      obtain ⟨k, v1⟩ := kv
      by_cases hk : k = K
      · have h1 : assignedValues K [l] = [v1] := by simp [assignedValues, hA, hk]
        rw [h1, List.getLast?_append, List.getLast?_singleton] at hlast
        have hv : v1 = v := by simpa using hlast
        subst hk
        subst hv
        exact os.Setenv_getD_self _ hvalid
      · have h0 : assignedValues K [l] = [] := by simp [assignedValues, hA, hk]
        rw [h0, List.append_nil] at hlast
        show (os.Setenv (LoadFile.loop w init).env k v1).getD (LoadFile.loop w init).env K = some v
        rw [os.Setenv_getD_of_ne _ _ hk]
        exact ih hlast

/-- `LoadFile` on a file that opens is the scanning loop over its lines. -/
theorem LoadFile_of_open {fs : FileSystem} {path text : String} (w : World)
    (hopen : fs path = .ok text) :
    LoadFile fs path w = LoadFile.loop w (bufio.ScanLines text) := by
  simp [LoadFile, hopen]

/-! ## Further properties of `envv.Parse` -/

/-- `Parse` looks at the environment through `os.Getenv` of the declared
name only. -/
theorem parse_congr {T : GoType} (e : envv T) (env1 env2 : os.Store)
    (h : os.Getenv env1 e.name = os.Getenv env2 e.name) : e.Parse env1 = e.Parse env2 := by
  unfold envv.Parse
  rw [h]

/-- `os.Getenv` reads the entry of its key only. -/
theorem os.Getenv_congr (env1 env2 : os.Store) (key : String) (h : env1 key = env2 key) :
    os.Getenv env1 key = os.Getenv env2 key := by
  unfold os.Getenv os.LookupEnv
  rw [h]

/-- C11. Absent and empty are the same to `Parse`: for a declaration built
through the fluent API and two environments that differ only in that the
declared variable is absent in the one and set to the empty string in the
other, `Parse` has the same outcome in both. -/
theorem parse_absent_eq_empty {T : GoType} (e : envv T) (envAbsent envEmpty : os.Store)
    (_h : e.Fluent)
    (habsent : envAbsent e.name = none) (hempty : envEmpty e.name = some "")
    (_hother : ∀ k, k ≠ e.name → envAbsent k = envEmpty k) :
    e.Parse envAbsent = e.Parse envEmpty := by
  apply parse_congr
  unfold os.Getenv os.LookupEnv
  rw [habsent, hempty]
  split <;> rfl

/-- C11, at `Get("X").Int().Default(7)`: 7 with `X` absent and with `X=""`. -/
theorem parse_absent_eq_empty_witness :
    ((Get "X").Int.Default 7).Parse emptyEnv = ((Get "X").Int.Default 7).Parse (singleEnv "X" "") ∧
    ((Get "X").Int.Default 7).Parse (singleEnv "X" "") = .ok 7 :=
  ⟨parse_absent_eq_empty ((Get "X").Int.Default 7) emptyEnv (singleEnv "X" "")
     (envv.Fluent.intDefault "X" 7) rfl rfl
     (fun k hk => by
       have hk2 : k ≠ "X" := hk
       simp [emptyEnv, singleEnv, hk2]),
   by decide⟩

/-- C12. Every declaration that `Default`, `Required` or `Optional` returns
is in exactly one presence mode: `Required()` gives the Required mode,
`Optional()` the Optional mode, `Default(d)` the DefaultValue mode with the
default `d`; the three modes exclude each other, and none of the three
configurators sets `required` together with a default. -/
theorem presence_mode_invariant {T : GoType} (t : typedEnvv T) :
    (t.Required.isRequired ∧ ¬ t.Required.isOptional ∧ ¬ t.Required.isDefaultValue) ∧
    (t.Optional.isOptional ∧ ¬ t.Optional.isRequired ∧ ¬ t.Optional.isDefaultValue) ∧
    (∀ d, (t.Default d).isDefaultValue ∧ (t.Default d).defaultValue = some d ∧
      ¬ (t.Default d).isRequired ∧ ¬ (t.Default d).isOptional) ∧
    (∀ e : envv T, (e = t.Required ∨ e = t.Optional ∨ ∃ d, e = t.Default d) →
      ¬ (e.required = true ∧ e.defaultValue ≠ none)) := by
  refine ⟨?_, ?_, ?_, ?_⟩
  · simp [typedEnvv.Required, envv.isRequired, envv.isOptional, envv.isDefaultValue]
  · simp [typedEnvv.Optional, envv.isRequired, envv.isOptional, envv.isDefaultValue]
  · intro d
    simp [typedEnvv.Default, envv.isRequired, envv.isOptional, envv.isDefaultValue]
  · rintro e (rfl | rfl | ⟨d, rfl⟩) <;> simp [typedEnvv.Required, typedEnvv.Optional,
      typedEnvv.Default]

/-- With a value that is not empty, `Parse` is the type switch on that value
in every presence mode. -/
theorem parse_of_nonempty {T : GoType} (e : envv T) (env : os.Store) (v : String)
    (hv : os.Getenv env e.name = v) (hne : v ≠ "") :
    e.Parse env = envv.parseValue T e.name v := by
  unfold envv.Parse
  rw [hv]
  simp only [hne, false_and, if_false]
  cases e.defaultValue <;> rfl

/-- The values `strconv.ParseBool` reads as `true`. -/
theorem strconv.ParseBool_true (v : String)
    (h : v = "1" ∨ v = "t" ∨ v = "T" ∨ v = "TRUE" ∨ v = "true" ∨ v = "True") :
    strconv.ParseBool v = (true, none) := by
  unfold strconv.ParseBool
  rw [if_pos h]

/-- The values `strconv.ParseBool` reads as `false`. -/
theorem strconv.ParseBool_false (v : String)
    (h : v = "0" ∨ v = "f" ∨ v = "F" ∨ v = "FALSE" ∨ v = "false" ∨ v = "False") :
    strconv.ParseBool v = (false, none) := by
  unfold strconv.ParseBool
  have hn : ¬ (v = "1" ∨ v = "t" ∨ v = "T" ∨ v = "TRUE" ∨ v = "true" ∨ v = "True") := by
    rcases h with h | h | h | h | h | h <;> subst h <;> decide
  rw [if_neg hn, if_pos h]

/-- The values `strconv.ParseBool` rejects. -/
theorem strconv.ParseBool_other (v : String)
    (ht : ¬ (v = "1" ∨ v = "t" ∨ v = "T" ∨ v = "TRUE" ∨ v = "true" ∨ v = "True"))
    (hf : ¬ (v = "0" ∨ v = "f" ∨ v = "F" ∨ v = "FALSE" ∨ v = "false" ∨ v = "False")) :
    strconv.ParseBool v = (false, some (strconv.syntaxError "ParseBool" v)) := by
  unfold strconv.ParseBool
  rw [if_neg ht, if_neg hf]

/-- C13, as stated, fails at `X="tRuE"` and at `X="fALSE"`: each equals
`true` or `false` when letter case is ignored, and
`Get("X").Bool().Optional().Parse()` panics with a parse error on it. -/
theorem parse_bool_counterexample :
    "tRuE".data.map Char.toLower = "true".data ∧
    (Get "X").Bool.Optional.Parse (singleEnv "X" "tRuE")
      = .error (Panic.parseFailed GoType.bool "tRuE"
          (ParseCause.num (strconv.syntaxError "ParseBool" "tRuE"))) ∧
    "fALSE".data.map Char.toLower = "false".data ∧
    (Get "X").Bool.Optional.Parse (singleEnv "X" "fALSE")
      = .error (Panic.parseFailed GoType.bool "fALSE"
          (ParseCause.num (strconv.syntaxError "ParseBool" "fALSE"))) := by
  decide

/-- C13, amended. For every value `v` of the variable that is not empty,
`Get(name).Bool().Optional().Parse()` returns `true` when `v` is one of
`1`, `t`, `T`, `TRUE`, `true`, `True`, returns `false` when `v` is one of
`0`, `f`, `F`, `FALSE`, `false`, `False`, and panics with a parse error for
every other `v`. -/
theorem parse_bool (env : os.Store) (name v : String)
    (hv : os.Getenv env name = v) (hne : v ≠ "") :
    ((v = "1" ∨ v = "t" ∨ v = "T" ∨ v = "TRUE" ∨ v = "true" ∨ v = "True") →
      (Get name).Bool.Optional.Parse env = .ok true) ∧
    ((v = "0" ∨ v = "f" ∨ v = "F" ∨ v = "FALSE" ∨ v = "false" ∨ v = "False") →
      (Get name).Bool.Optional.Parse env = .ok false) ∧
    (¬ (v = "1" ∨ v = "t" ∨ v = "T" ∨ v = "TRUE" ∨ v = "true" ∨ v = "True") →
      ¬ (v = "0" ∨ v = "f" ∨ v = "F" ∨ v = "FALSE" ∨ v = "false" ∨ v = "False") →
      (Get name).Bool.Optional.Parse env
        = .error (Panic.parseFailed GoType.bool v
            (ParseCause.num (strconv.syntaxError "ParseBool" v)))) := by
  have hp : (Get name).Bool.Optional.Parse env = envv.parseValue GoType.bool name v :=
    parse_of_nonempty (Get name).Bool.Optional env v hv hne
  refine ⟨fun h => ?_, fun h => ?_, fun ht hf => ?_⟩
  · rw [hp, envv.parseValue, strconv.ParseBool_true v h]
  · rw [hp, envv.parseValue, strconv.ParseBool_false v h]
  · rw [hp, envv.parseValue, strconv.ParseBool_other v ht hf]

/-- C13, amended, at `X="TRUE"`, `X="F"` and `X="yes"`. -/
theorem parse_bool_witness :
    (Get "X").Bool.Optional.Parse (singleEnv "X" "TRUE") = .ok true ∧
    (Get "X").Bool.Optional.Parse (singleEnv "X" "F") = .ok false ∧
    (Get "X").Bool.Optional.Parse (singleEnv "X" "yes")
      = .error (Panic.parseFailed GoType.bool "yes"
          (ParseCause.num (strconv.syntaxError "ParseBool" "yes"))) :=
  ⟨(parse_bool (singleEnv "X" "TRUE") "X" "TRUE" (by decide) (by decide)).1 (by decide),
   (parse_bool (singleEnv "X" "F") "X" "F" (by decide) (by decide)).2.1 (by decide),
   (parse_bool (singleEnv "X" "yes") "X" "yes" (by decide) (by decide)).2.2
     (by decide) (by decide)⟩

/-- C15. The variable name goes unchanged through every builder stage:
`Get(n)` holds `n`, each of the five type selectors and each of the three
presence configurators keeps the name, so that `Parse` on a declaration with
the name `n` reads the entry of `n` only: two environments with the same
entry for `n` give the same outcome, whatever their other entries. -/
theorem name_carried (n : String) :
    (Get n).name = n ∧
    (Get n).String.name = n ∧ (Get n).Int.name = n ∧ (Get n).Bool.name = n ∧
    (Get n).Float64.name = n ∧ (Get n).Duration.name = n ∧
    (∀ (T : GoType) (t : typedEnvv T) (d : T.Value),
      (t.Default d).name = t.name ∧ t.Required.name = t.name ∧ t.Optional.name = t.name) ∧
    (∀ (T : GoType) (e : envv T), e.Fluent → e.name = n →
      ∀ env1 env2 : os.Store, env1 n = env2 n → e.Parse env1 = e.Parse env2) := by
  refine ⟨rfl, rfl, rfl, rfl, rfl, rfl, fun T t d => ⟨rfl, rfl, rfl⟩, ?_⟩
  intro T e _ hn env1 env2 h
  apply parse_congr
  rw [hn]
  exact os.Getenv_congr env1 env2 n h

/-- C15, at `Get("TEST_VAR")` and at `Get("A").Int().Optional()` in two
environments that agree on `A` and differ on `B`. -/
theorem name_carried_witness :
    (Get "TEST_VAR").name = "TEST_VAR" ∧
    (Get "A").Int.Optional.Parse (singleEnv "A" "1")
      = (Get "A").Int.Optional.Parse (fun k => if k = "B" then some "2" else singleEnv "A" "1" k) :=
  ⟨(name_carried "TEST_VAR").1,
   (name_carried "A").2.2.2.2.2.2.2 GoType.int (Get "A").Int.Optional
     (envv.Fluent.intOptional "A") rfl (singleEnv "A" "1")
     (fun k => if k = "B" then some "2" else singleEnv "A" "1" k) (by decide)⟩

/-- For the five types the type switch of `Parse` does not take its
`default` branch. -/
theorem parseValue_ne_unexpectedType {T : GoType} (hT : T ≠ GoType.other)
    (name value n : String) :
    envv.parseValue T name value ≠ .error (Panic.unexpectedType n) := by
  cases T with
  | string => exact fun h => nomatch h
  | int =>
    rcases h : strconv.Atoi value with ⟨v, _ | err⟩ <;> simp [envv.parseValue, h]
  | bool =>
    rcases h : strconv.ParseBool value with ⟨v, _ | err⟩ <;> simp [envv.parseValue, h]
  | float64 =>
    rcases h : strconv.ParseFloat value with ⟨v, _ | err⟩ <;> simp [envv.parseValue, h]
  | duration =>
    rcases h : time.ParseDuration value with err | v <;> simp [envv.parseValue, h]
  | other => exact absurd rfl hT

/-- For a type outside the five the type switch takes its `default` branch
and panics; only the type selectors keep `Parse` away from it. -/
theorem parseValue_other (name value : String) :
    envv.parseValue GoType.other name value = .error (Panic.unexpectedType name) :=
  rfl

/-- The three ways `Parse` ends: the panic for a missing required variable,
the default, or the type switch on the value read. -/
theorem parse_cases {T : GoType} (e : envv T) (env : os.Store) :
    e.Parse env = .error (Panic.requiredMissing e.name) ∨
    (∃ d, e.Parse env = .ok d) ∨
    e.Parse env = envv.parseValue T e.name (os.Getenv env e.name) := by
  rcases e with ⟨name, required, _ | d⟩ <;>
    by_cases hv : os.Getenv env name = "" <;> cases required <;> simp [envv.Parse, hv]

/-- C18. The `default` branch of the type switch of `Parse` is not reached
through the public API: a declaration made by `Get(name)`, one of the five
type selectors and one of the three presence configurators has one of the
five types, the type switch takes one of the five typed cases on every value,
and `Parse` never panics with the message of the `default` branch. -/
theorem parse_type_switch_total {T : GoType} (e : envv T) (h : e.Fluent) :
    T ≠ GoType.other ∧
    (∀ name value n : String,
      envv.parseValue T name value ≠ .error (Panic.unexpectedType n)) ∧
    (∀ (env : os.Store) (n : String), e.Parse env ≠ .error (Panic.unexpectedType n)) := by
  have hT := h.ne_other
  refine ⟨hT, fun name value n => parseValue_ne_unexpectedType hT name value n, ?_⟩
  intro env n hp
  rcases parse_cases e env with h1 | ⟨d, h1⟩ | h1
  · rw [h1] at hp
    exact nomatch hp
  · rw [h1] at hp
    exact nomatch hp
  · rw [h1] at hp
    exact parseValue_ne_unexpectedType hT _ _ n hp

/-- C18, at `Get("X").Float64().Required()` with `X="abc"`: the panic is the
parse error of the `float64` case. -/
theorem parse_type_switch_total_witness :
    envv.Fluent (Get "X").Float64.Required ∧
    (Get "X").Float64.Required.Parse (singleEnv "X" "abc")
      ≠ .error (Panic.unexpectedType "X") ∧
    (Get "X").Float64.Required.Parse (singleEnv "X" "abc")
      = .error (Panic.parseFailed GoType.float64 "abc"
          (ParseCause.num (strconv.syntaxError "ParseFloat" "abc"))) :=
  ⟨envv.Fluent.float64Required "X",
   (parse_type_switch_total (Get "X").Float64.Required (envv.Fluent.float64Required "X")).2.2
     (singleEnv "X" "abc") "X",
   by decide⟩

/-! ## Further properties of `LoadFile` -/

/-- A pair that `os.Setenv` refuses leaves the environment as it was. -/
theorem os.Setenv_getD_of_invalid (env : os.Store) {k v : String}
    (h : os.validSetenv k v = false) : (os.Setenv env k v).getD env = env := by
  simp [os.Setenv, h]

/-- After the loop of `LoadFile` a key holds the value of its last accepted
assignment line, or what it held before when it has none. -/
theorem LoadFile.loop_env_eq (lines : List String) (w : World) (K : String) :
    (LoadFile.loop w lines).env K =
      match (acceptedValues K lines).getLast? with
      | some v => some v
      | none => w.env K := by
  induction lines using List.reverseRecOn with
  | nil => rfl
  | append_singleton init l ih =>
    rw [LoadFile.loop_append]
    show (LoadFile.step (LoadFile.loop w init) l).env K = _
    rw [LoadFile.step_env]
    have happ : acceptedValues K (init ++ [l])
        = acceptedValues K init ++ acceptedValues K [l] := by
      simp [acceptedValues, assignedValues_append]
    rw [happ]
    cases hA : assignmentOf l with
    | none =>
      have h0 : acceptedValues K [l] = [] := by simp [acceptedValues, assignedValues, hA]
      rw [h0, List.append_nil]
      exact ih
    | some kv =>
      obtain ⟨k, v1⟩ := kv
      by_cases hk : k = K
      · subst hk
        cases hval : os.validSetenv k v1 with
        | true =>
          have h1 : acceptedValues k [l] = [v1] := by
            simp [acceptedValues, assignedValues, hA, hval]
          rw [h1, List.getLast?_append, List.getLast?_singleton]
          exact os.Setenv_getD_self _ hval
        | false =>
          have h0 : acceptedValues k [l] = [] := by
            simp [acceptedValues, assignedValues, hA, hval]
          rw [h0, List.append_nil]
          show (os.Setenv (LoadFile.loop w init).env k v1).getD (LoadFile.loop w init).env k = _
          rw [os.Setenv_getD_of_invalid _ hval]
          exact ih
      · have h0 : acceptedValues K [l] = [] := by
          simp [acceptedValues, assignedValues, hA, hk]
        rw [h0, List.append_nil]
        show (os.Setenv (LoadFile.loop w init).env k v1).getD (LoadFile.loop w init).env K = _
        rw [os.Setenv_getD_of_ne _ _ hk]
        exact ih

/-- Loading the same lines a second time changes no entry. -/
theorem LoadFile.loop_env_idempotent (lines : List String) (w : World) :
    (LoadFile.loop (LoadFile.loop w lines) lines).env = (LoadFile.loop w lines).env := by
  funext K
  rw [LoadFile.loop_env_eq lines (LoadFile.loop w lines) K, LoadFile.loop_env_eq lines w K]
  cases (acceptedValues K lines).getLast? <;> rfl

/-- A failed open leaves the environment as it was. -/
theorem LoadFile_of_error {fs : FileSystem} {path err : String} (w : World)
    (hopen : fs path = .error err) : (LoadFile fs path w).env = w.env := by
  simp [LoadFile, hopen]

/-- C17. The frame of the loader: a key that is not the text before the first
`=` of a line of the file that holds a `=` and does not begin with `#` has
after `LoadFile` the value, or the absence, it had before; a file that does
not open changes nothing; and `LoadFile` never deletes an entry. -/
theorem loadFile_frame (fs : FileSystem) (path : String) (w : World) :
    (∀ text, fs path = .ok text → ∀ K : String,
      (∀ line ∈ bufio.ScanLines text, (assignmentOf line).map Prod.fst ≠ some K) →
      (LoadFile fs path w).env K = w.env K) ∧
    (∀ err, fs path = .error err → (LoadFile fs path w).env = w.env) ∧
    (∀ K : String, w.env K ≠ none → (LoadFile fs path w).env K ≠ none) := by
  refine ⟨?_, fun err h => LoadFile_of_error w h, ?_⟩
  · intro text hopen K hK
    rw [LoadFile_of_open w hopen, LoadFile.loop_env_eq]
    have h0 : assignedValues K (bufio.ScanLines text) = [] := by
      unfold assignedValues
      rw [List.filterMap_eq_nil_iff]
      intro l hl
      cases hA : assignmentOf l with
      | none => rfl
      | some kv =>
        obtain ⟨k, v1⟩ := kv
        have hk : k ≠ K := by
          rintro rfl
          exact hK l hl (by rw [hA]; rfl)
        simp [hk]
    simp [acceptedValues, h0]
  · intro K hK
    cases hf : fs path with
    | error err => rw [LoadFile_of_error w hf]; exact hK
    | ok text =>
      rw [LoadFile_of_open w hf, LoadFile.loop_env_eq]
      cases (acceptedValues K (bufio.ScanLines text)).getLast? with
      | none => exact hK
      | some v => exact fun h => nomatch h

/-- C17, at the file of the lines `A=1` and `#B=2`, loaded into an
environment that holds `B` and lacks `C`: `B` keeps its value, `C` stays
absent. -/
theorem loadFile_frame_witness :
    (LoadFile (oneFile ".env" "A=1\n#B=2") ".env" ⟨singleEnv "B" "0", []⟩).env "B" = some "0" ∧
    (LoadFile (oneFile ".env" "A=1\n#B=2") ".env" ⟨singleEnv "B" "0", []⟩).env "C" = none ∧
    (LoadFile (oneFile ".env" "A=1\n#B=2") ".env" ⟨singleEnv "B" "0", []⟩).env "A" = some "1" :=
  ⟨(loadFile_frame (oneFile ".env" "A=1\n#B=2") ".env" ⟨singleEnv "B" "0", []⟩).1
     "A=1\n#B=2" rfl "B" (by decide),
   (loadFile_frame (oneFile ".env" "A=1\n#B=2") ".env" ⟨singleEnv "B" "0", []⟩).1
     "A=1\n#B=2" rfl "C" (by decide),
   by decide⟩

/-! ## The line scanner -/

/-- The encoding of a text has as many bytes read backwards. -/
theorem bufio.byteLen_reverse (l : List Char) : bufio.byteLen l.reverse = bufio.byteLen l := by
  simp [bufio.byteLen, List.sum_reverse]

/-- A text with a character has a byte. -/
theorem bufio.byteLen_cons_pos (c : Char) (l : List Char) : 0 < bufio.byteLen (c :: l) := by
  have := Char.utf8Size_pos c
  simp only [bufio.byteLen, List.map_cons, List.sum_cons]
  omega

/-- Dropping an empty last piece leaves the first piece when more follow. -/
theorem dropEmptyLast_cons (x : List Char) {rest : List (List Char)} (h : rest ≠ []) :
    dropEmptyLast (x :: rest) = x :: dropEmptyLast rest := by
  obtain ⟨y, ys, rfl⟩ := List.exists_cons_of_ne_nil h
  unfold dropEmptyLast
  rw [List.getLast?_cons_cons]
  split
  · rw [List.dropLast_cons₂]
  · rfl

/-- The scanner yields the segments of the text left, the first one after
the bytes `acc` already read for it, when all of them fit in the buffer. -/
theorem bufio.scanFrom_eq (l : List Char) (acc : List Char)
    (hbound : ∀ seg ∈ dropEmptyLast ((l.splitOn '\n').modifyHead (fun s => acc.reverse ++ s)),
      bufio.byteLen seg < bufio.MaxScanTokenSize) :
    bufio.scanFrom acc (bufio.byteLen acc) l
      = (dropEmptyLast ((l.splitOn '\n').modifyHead (fun s => acc.reverse ++ s))).map
          (fun seg => String.mk (bufio.dropCR seg)) := by
  induction l generalizing acc with
  | nil =>
    have hs : ([] : List Char).splitOn '\n' = [[]] := List.splitOn_nil _
    rw [hs] at hbound ⊢
    simp only [List.modifyHead, List.append_nil] at hbound ⊢
    cases acc with
    | nil => simp [bufio.scanFrom, bufio.byteLen, dropEmptyLast]
    | cons a as =>
      have hne : (a :: as).reverse ≠ [] := by simp
      have hd : dropEmptyLast [(a :: as).reverse] = [(a :: as).reverse] := by
        simp [dropEmptyLast, hne]
      rw [hd] at hbound ⊢
      have hb := hbound _ (List.mem_singleton.mpr rfl)
      rw [bufio.byteLen_reverse] at hb
      have hpos := bufio.byteLen_cons_pos a as
      simp only [bufio.scanFrom, List.map_cons, List.map_nil]
      rw [if_neg (by omega), if_pos hb]
  | cons c cs ih =>
    obtain ⟨hd, tl, hsplit⟩ := List.exists_cons_of_ne_nil
      (List.splitOnP_ne_nil (fun x => x == '\n') cs)
    have hsplit2 : cs.splitOn '\n' = hd :: tl := hsplit
    by_cases hc : c = '\n'
    · subst hc
      have hs : ('\n' :: cs).splitOn '\n' = [] :: cs.splitOn '\n' := by
        show ('\n' :: cs).splitOnP (fun x => x == '\n') = _
        rw [List.splitOnP_cons]
        simp [List.splitOn]
      rw [hs] at hbound ⊢
      simp only [List.modifyHead, List.append_nil] at hbound ⊢
      have hne : cs.splitOn '\n' ≠ [] := by rw [hsplit2]; simp
      rw [dropEmptyLast_cons _ hne] at hbound ⊢
      have hb := hbound _ (List.mem_cons_self _ _)
      rw [bufio.byteLen_reverse] at hb
      have hrest := ih [] (by
        intro seg hseg
        apply hbound seg
        apply List.mem_cons_of_mem
        rw [hsplit2] at hseg ⊢
        simpa [List.modifyHead] using hseg)
      have h0 : bufio.byteLen [] = 0 := rfl
      rw [h0] at hrest
      simp only [bufio.scanFrom, List.map_cons]
      rw [if_pos trivial, if_pos hb, hrest, hsplit2]
      simp [List.modifyHead]
    · have hs : (c :: cs).splitOn '\n' = (cs.splitOn '\n').modifyHead (List.cons c) := by
        show (c :: cs).splitOnP (fun x => x == '\n') = _
        rw [List.splitOnP_cons]
        simp [List.splitOn, hc]
      have hm : ((c :: cs).splitOn '\n').modifyHead (fun s => acc.reverse ++ s)
          = (cs.splitOn '\n').modifyHead (fun s => (c :: acc).reverse ++ s) := by
        rw [hs, hsplit2]
        simp [List.modifyHead]
      rw [hm] at hbound ⊢
      have hrest := ih (c :: acc) hbound
      have hlen : bufio.byteLen (c :: acc) = bufio.byteLen acc + c.utf8Size := by
        simp only [bufio.byteLen, List.map_cons, List.sum_cons]
        omega
      rw [hlen] at hrest
      have hc10 : ¬ c = Char.ofNat 10 := hc
      simp only [bufio.scanFrom]
      rw [if_neg hc10, hrest]

/-- The scanner reads a run of the byte `x` into the line it is at. -/
theorem bufio.scanFrom_replicate (k : Nat) (acc : List Char) (n : Nat) (rest : List Char) :
    bufio.scanFrom acc n (List.replicate k 'x' ++ rest)
      = bufio.scanFrom (List.replicate k 'x' ++ acc) (n + k) rest := by
  induction k generalizing acc n with
  | zero => rfl
  | succ k ih =>
    have hx : ¬ 'x' = Char.ofNat 10 := by decide
    have h1 : 'x'.utf8Size = 1 := by decide
    rw [List.replicate_succ, List.cons_append]
    simp only [bufio.scanFrom]
    rw [if_neg hx, ih, h1]
    have hr : List.replicate k 'x' ++ 'x' :: acc = 'x' :: List.replicate k 'x' ++ acc := by
      rw [← List.replicate_succ, List.replicate_succ', List.append_assoc]
      rfl
    rw [hr, Nat.add_assoc, Nat.add_comm 1 k]

/-- At a newline that lies beyond the buffer the scanner stops. -/
theorem bufio.scanFrom_too_long (acc : List Char) (n : Nat) (cs : List Char)
    (h : ¬ n < bufio.MaxScanTokenSize) : bufio.scanFrom acc n ('\n' :: cs) = [] := by
  simp only [bufio.scanFrom]
  rw [if_pos trivial, if_neg h]

/-- C20, as stated, fails at the file of a line of 65536 bytes `x` followed
by the line `A=1`.  Its segments are the long line and `A=1`, but the
scanner stops at the long line, which does not fit its buffer: `LoadFile`
processes no line and `A` stays unset. -/
theorem loadFile_lines_counterexample :
    segments longLineText = [List.replicate 65536 'x', "A=1".data] ∧
    bufio.ScanLines longLineText = [] ∧
    (LoadFile (oneFile ".env" longLineText) ".env" ⟨emptyEnv, []⟩).env "A" = none := by
  have hscan : bufio.ScanLines longLineText = [] := by
    show bufio.scanFrom [] 0 (List.replicate 65536 'x' ++ '\n' :: "A=1".data) = []
    rw [bufio.scanFrom_replicate]
    exact bufio.scanFrom_too_long _ _ _ (by decide)
  refine ⟨?_, hscan, ?_⟩
  · show dropEmptyLast
      ((List.replicate 65536 'x' ++ '\n' :: "A=1".data).splitOnP (fun c => c == '\n')) = _
    rw [List.splitOnP_first (fun c => c == '\n') (List.replicate 65536 'x')
      (fun c hc => by rw [List.eq_of_mem_replicate hc]; decide) '\n' (by decide)]
    rw [dropEmptyLast_cons _ (List.splitOnP_ne_nil _ _)]
    rfl
  · have hopen : oneFile ".env" longLineText ".env" = .ok longLineText := rfl
    rw [LoadFile_of_open _ hopen, hscan]
    rfl

/-- C20, amended. For a file text whose segments (the pieces that the
newlines delimit, and a final piece without a newline when it is not empty)
each have fewer than 65536 bytes, `LoadFile` processes exactly these
segments in order, each without one trailing carriage return.  Hence for the
text `K=V\r\n` the value of `K` is `V` without the carriage return, and for
`A=1\nB=2` both `A` and `B` are set. -/
theorem loadFile_lines (fs : FileSystem) (path text : String) (w : World)
    (hopen : fs path = .ok text)
    (hfit : ∀ seg ∈ segments text, bufio.byteLen seg < bufio.MaxScanTokenSize) :
    bufio.ScanLines text = segmentLines text ∧
    LoadFile fs path w = LoadFile.loop w (segmentLines text) ∧
    (LoadFile (oneFile ".env" "K=V\r\n") ".env" w).env "K" = some "V" ∧
    (LoadFile (oneFile ".env" "A=1\nB=2") ".env" w).env "A" = some "1" ∧
    (LoadFile (oneFile ".env" "A=1\nB=2") ".env" w).env "B" = some "2" := by
  have hscan : bufio.ScanLines text = segmentLines text := by
    have h := bufio.scanFrom_eq text.data [] (by
      intro seg hseg
      apply hfit seg
      have hid : (text.data.splitOn '\n').modifyHead (fun s => ([] : List Char).reverse ++ s)
          = text.data.splitOn '\n' := by
        cases text.data.splitOn '\n' <;> simp [List.modifyHead]
      rw [hid] at hseg
      exact hseg)
    have hid : (text.data.splitOn '\n').modifyHead (fun s => ([] : List Char).reverse ++ s)
        = text.data.splitOn '\n' := by
      cases text.data.splitOn '\n' <;> simp [List.modifyHead]
    rw [hid] at h
    exact h
  refine ⟨hscan, ?_, ?_, ?_, ?_⟩
  · rw [LoadFile_of_open w hopen, hscan]
  · have ho : oneFile ".env" "K=V\r\n" ".env" = .ok "K=V\r\n" := rfl
    rw [LoadFile_of_open w ho]
    exact LoadFile.loop_env_last _ w "K" "V" (by decide) (by decide)
  · have ho : oneFile ".env" "A=1\nB=2" ".env" = .ok "A=1\nB=2" := rfl
    rw [LoadFile_of_open w ho]
    exact LoadFile.loop_env_last _ w "A" "1" (by decide) (by decide)
  · have ho : oneFile ".env" "A=1\nB=2" ".env" = .ok "A=1\nB=2" := rfl
    rw [LoadFile_of_open w ho]
    exact LoadFile.loop_env_last _ w "B" "2" (by decide) (by decide)

/-- C20, amended, at the text `K=V\r\n\r\nA=1\nB=2`: four lines, the second
one empty, the last one without its newline. -/
theorem loadFile_lines_witness :
    bufio.ScanLines "K=V\r\n\r\nA=1\nB=2" = ["K=V", "", "A=1", "B=2"] ∧
    segmentLines "K=V\r\n\r\nA=1\nB=2" = ["K=V", "", "A=1", "B=2"] :=
  ⟨by decide,
   (loadFile_lines (oneFile ".env" "K=V\r\n\r\nA=1\nB=2") ".env" "K=V\r\n\r\nA=1\nB=2"
      ⟨emptyEnv, []⟩ rfl (by decide)).1 ▸ (by decide)⟩

/-! ## `LoadFile` over the lines of the file text -/

/-- The lines of a file text are the lines of its segments. -/
theorem segmentLines_eq (text : String) : segmentLines text = (segments text).map lineOf :=
  rfl

/-- The scanner yields the lines of the segments of the text left, the first
one after the bytes `acc` already read for it, up to the first segment that
does not fit in the buffer. -/
theorem bufio.scanFrom_takeWhile (l : List Char) (acc : List Char) :
    bufio.scanFrom acc (bufio.byteLen acc) l
      = ((dropEmptyLast ((l.splitOn '\n').modifyHead (fun s => acc.reverse ++ s))).takeWhile
          (fun seg => decide (bufio.byteLen seg < bufio.MaxScanTokenSize))).map lineOf := by
  induction l generalizing acc with
  | nil =>
    have hs : ([] : List Char).splitOn '\n' = [[]] := List.splitOn_nil _
    rw [hs]
    simp only [List.modifyHead, List.append_nil]
    cases acc with
    | nil => simp [bufio.scanFrom, bufio.byteLen, dropEmptyLast]
    | cons a as =>
      have hne : (a :: as).reverse ≠ [] := by simp
      have hd : dropEmptyLast [(a :: as).reverse] = [(a :: as).reverse] := by
        simp [dropEmptyLast, hne]
      rw [hd]
      have hpos := bufio.byteLen_cons_pos a as
      simp only [bufio.scanFrom, List.takeWhile_cons, List.takeWhile_nil, bufio.byteLen_reverse]
      rw [if_neg (by omega)]
      by_cases hb : bufio.byteLen (a :: as) < bufio.MaxScanTokenSize
      · rw [if_pos hb]
        simp [hb, lineOf]
      · rw [if_neg hb]
        simp [hb]
  | cons c cs ih =>
    obtain ⟨hd, tl, hsplit⟩ := List.exists_cons_of_ne_nil
      (List.splitOnP_ne_nil (fun x => x == '\n') cs)
    have hsplit2 : cs.splitOn '\n' = hd :: tl := hsplit
    by_cases hc : c = '\n'
    · subst hc
      have hs : ('\n' :: cs).splitOn '\n' = [] :: cs.splitOn '\n' := by
        show ('\n' :: cs).splitOnP (fun x => x == '\n') = _
        rw [List.splitOnP_cons]
        simp [List.splitOn]
      rw [hs]
      simp only [List.modifyHead, List.append_nil]
      have hne : cs.splitOn '\n' ≠ [] := by rw [hsplit2]; simp
      rw [dropEmptyLast_cons _ hne]
      have hrest := ih []
      have h0 : bufio.byteLen [] = 0 := rfl
      have hid : (cs.splitOn '\n').modifyHead (fun s => ([] : List Char).reverse ++ s)
          = cs.splitOn '\n' := by
        rw [hsplit2]
        simp [List.modifyHead]
      rw [h0, hid] at hrest
      simp only [bufio.scanFrom, List.takeWhile_cons, bufio.byteLen_reverse]
      rw [if_pos trivial]
      by_cases hb : bufio.byteLen acc < bufio.MaxScanTokenSize
      · rw [if_pos hb, hrest]
        simp [hb, lineOf]
      · rw [if_neg hb]
        simp [hb]
    · have hs : (c :: cs).splitOn '\n' = (cs.splitOn '\n').modifyHead (List.cons c) := by
        show (c :: cs).splitOnP (fun x => x == '\n') = _
        rw [List.splitOnP_cons]
        simp [List.splitOn, hc]
      have hm : ((c :: cs).splitOn '\n').modifyHead (fun s => acc.reverse ++ s)
          = (cs.splitOn '\n').modifyHead (fun s => (c :: acc).reverse ++ s) := by
        rw [hs, hsplit2]
        simp [List.modifyHead]
      rw [hm]
      have hrest := ih (c :: acc)
      have hlen : bufio.byteLen (c :: acc) = bufio.byteLen acc + c.utf8Size := by
        simp only [bufio.byteLen, List.map_cons, List.sum_cons]
        omega
      rw [hlen] at hrest
      have hc10 : ¬ c = Char.ofNat 10 := hc
      simp only [bufio.scanFrom]
      rw [if_neg hc10, hrest]

/-- The scanner yields the lines of the segments of the file text up to the
first segment that does not fit in its buffer. -/
theorem bufio.ScanLines_eq_takeWhile (text : String) :
    bufio.ScanLines text
      = ((segments text).takeWhile
          (fun seg => decide (bufio.byteLen seg < bufio.MaxScanTokenSize))).map lineOf := by
  have h := bufio.scanFrom_takeWhile text.data []
  have hid : (text.data.splitOn '\n').modifyHead (fun s => ([] : List Char).reverse ++ s)
      = text.data.splitOn '\n' := by
    cases text.data.splitOn '\n' <;> simp [List.modifyHead]
  rw [hid] at h
  exact h

/-- After segments that fit in the buffer the scanner goes on with the
segments that follow, up to the first one that does not fit. -/
theorem bufio.ScanLines_of_fit (text : String) (pre post : List (List Char))
    (hsegs : segments text = pre ++ post)
    (hfit : ∀ s ∈ pre, bufio.byteLen s < bufio.MaxScanTokenSize) :
    bufio.ScanLines text
      = pre.map lineOf ++ (post.takeWhile
          (fun seg => decide (bufio.byteLen seg < bufio.MaxScanTokenSize))).map lineOf := by
  rw [bufio.ScanLines_eq_takeWhile, hsegs,
    List.takeWhile_append_of_pos (fun a ha => decide_eq_true (hfit a ha)), List.map_append]

/-- A segment that does not fit in the buffer stops the scanner. -/
theorem bufio.ScanLines_of_long (text : String) (pre post : List (List Char)) (seg : List Char)
    (hsegs : segments text = pre ++ seg :: post)
    (hfit : ∀ s ∈ pre, bufio.byteLen s < bufio.MaxScanTokenSize)
    (hlong : ¬ bufio.byteLen seg < bufio.MaxScanTokenSize) :
    bufio.ScanLines text = pre.map lineOf := by
  rw [bufio.ScanLines_of_fit text pre (seg :: post) hsegs hfit, List.takeWhile_cons,
    if_neg (by simpa using hlong)]
  simp

/-- The text before the first newline is the first segment. -/
theorem segments_cons (a rest : List Char) (ha : '\n' ∉ a) :
    segments (String.mk (a ++ '\n' :: rest)) = a :: segments (String.mk rest) := by
  show dropEmptyLast ((a ++ '\n' :: rest).splitOnP (fun c => c == '\n')) = _
  rw [List.splitOnP_first (fun c => c == '\n') a
    (fun c hc => by
      have hne : c ≠ '\n' := fun h => ha (h ▸ hc)
      simpa using hne) '\n' (by decide)]
  rw [dropEmptyLast_cons _ (List.splitOnP_ne_nil _ _)]
  rfl

/-- A run of the byte `x` is as many bytes long as it has characters. -/
theorem bufio.byteLen_replicate (k : Nat) : bufio.byteLen (List.replicate k 'x') = k := by
  induction k with
  | zero => rfl
  | succ k ih =>
    have h1 : 'x'.utf8Size = 1 := by decide
    have hc : bufio.byteLen ('x' :: List.replicate k 'x')
        = 'x'.utf8Size + bufio.byteLen (List.replicate k 'x') := by
      simp [bufio.byteLen]
    rw [List.replicate_succ, hc, ih, h1, Nat.add_comm]

/-- A run of the byte `x` holds no newline. -/
theorem newline_not_mem_replicate (k : Nat) : '\n' ∉ List.replicate k 'x' := by
  intro h
  exact absurd (List.eq_of_mem_replicate h) (by decide)

/-- The segments of the text of a long line followed by the line `A=1`. -/
theorem segments_longLineText :
    segments longLineText = [List.replicate 65536 'x', "A=1".data] := by
  have h := segments_cons (List.replicate 65536 'x') "A=1".data (newline_not_mem_replicate _)
  have h2 : segments (String.mk "A=1".data) = ["A=1".data] := by decide
  rw [h2] at h
  exact h

/-- The one segment of the text of a long line. -/
theorem segments_longLineOnly : segments longLineOnly = [List.replicate 65536 'x'] := by
  have h := segments_cons (List.replicate 65536 'x') [] (newline_not_mem_replicate _)
  have h2 : segments (String.mk []) = [] := by decide
  rw [h2] at h
  exact h

/-- The segments of the text of a long line between the lines `A=1` and
`A=2`. -/
theorem segments_longLineBetween :
    segments longLineBetween = ["A=1".data, List.replicate 65536 'x', "A=2".data] := by
  have h1 := segments_cons "A=1".data (List.replicate 65536 'x' ++ '\n' :: "A=2".data)
    (by decide)
  have h2 := segments_cons (List.replicate 65536 'x') "A=2".data (newline_not_mem_replicate _)
  have h3 : segments (String.mk "A=2".data) = ["A=2".data] := by decide
  rw [h3] at h2
  rw [h2] at h1
  exact h1

/-- A line of 65536 bytes does not fit in the buffer of the scanner. -/
theorem bufio.long_line_too_long :
    ¬ bufio.byteLen (List.replicate 65536 'x') < bufio.MaxScanTokenSize := by
  rw [bufio.byteLen_replicate]
  decide

/-- The scanner yields no line of the text of a long line followed by the
line `A=1`. -/
theorem bufio.ScanLines_longLineText : bufio.ScanLines longLineText = [] :=
  bufio.ScanLines_of_long longLineText [] ["A=1".data] _ segments_longLineText
    (fun _ h => nomatch h) bufio.long_line_too_long

/-- The scanner yields no line of the text of a long line. -/
theorem bufio.ScanLines_longLineOnly : bufio.ScanLines longLineOnly = [] :=
  bufio.ScanLines_of_long longLineOnly [] [] _ segments_longLineOnly
    (fun _ h => nomatch h) bufio.long_line_too_long

/-- The scanner yields the line `A=1` only of the text of a long line between
the lines `A=1` and `A=2`. -/
theorem bufio.ScanLines_longLineBetween : bufio.ScanLines longLineBetween = ["A=1"] :=
  bufio.ScanLines_of_long longLineBetween ["A=1".data] ["A=2".data] _ segments_longLineBetween
    (by decide) bufio.long_line_too_long

/-- Lines picked out of lines that do not assign to a key do not assign to
it. -/
theorem assignedValues_of_sublist (K : String) {a b : List String} (h : a.Sublist b)
    (hb : assignedValues K b = []) : assignedValues K a = [] := by
  have hs : (assignedValues K a).Sublist (assignedValues K b) := h.filterMap _
  rw [hb] at hs
  exact List.eq_nil_of_sublist_nil hs

/-- The lines that the scanner yields of segments are among the lines of
these segments. -/
theorem takeWhile_lines_sublist (p : List Char → Bool) (post : List (List Char)) :
    ((post.takeWhile p).map lineOf).Sublist (post.map lineOf) :=
  (List.takeWhile_sublist p).map lineOf

/-- The characters of a line are among those of its segment. -/
theorem lineOf_subset (seg : List Char) (c : Char) (h : c ∈ (lineOf seg).data) : c ∈ seg := by
  have hsub : (bufio.dropCR seg).Sublist seg := by
    unfold bufio.dropCR
    split
    · split
      · exact List.dropLast_sublist _
      · exact List.Sublist.refl _
    · exact List.Sublist.refl _
  exact hsub.subset h

/-- The segments of a text that ends in a newline, followed by another text,
are the segments of the one followed by those of the other. -/
theorem segments_append (a b : List Char) :
    segments (String.mk (a ++ '\n' :: b))
      = segments (String.mk (a ++ ['\n'])) ++ segments (String.mk b) := by
  have key : ∀ (n : Nat) (a : List Char), a.length ≤ n →
      segments (String.mk (a ++ '\n' :: b))
        = segments (String.mk (a ++ ['\n'])) ++ segments (String.mk b) := by
    intro n
    induction n with
    | zero =>
      intro a ha
      have h0 : a = [] := List.length_eq_zero.mp (Nat.le_zero.mp ha)
      subst h0
      have h1 := segments_cons [] b (List.not_mem_nil _)
      have h2 := segments_cons [] [] (List.not_mem_nil _)
      have h3 : segments (String.mk []) = [] := by decide
      rw [h3] at h2
      rw [List.nil_append] at h1 h2 ⊢
      rw [List.nil_append, h1, h2]
      rfl
    | succ n ih =>
      intro a ha
      have h3 : segments (String.mk []) = [] := by decide
      by_cases hm : '\n' ∈ a
      · obtain ⟨x, t, rfl, hx⟩ := List.eq_append_cons_of_mem hm
        have ht : t.length ≤ n := by
          simp only [List.length_append, List.length_cons] at ha
          omega
        have e1 : x ++ '\n' :: t ++ '\n' :: b = x ++ '\n' :: (t ++ '\n' :: b) := by simp
        have e2 : x ++ '\n' :: t ++ ['\n'] = x ++ '\n' :: (t ++ ['\n']) := by simp
        rw [e1, e2, segments_cons x _ hx, segments_cons x _ hx, ih t ht]
        rfl
      · have h2 := segments_cons a [] hm
        rw [h3] at h2
        rw [segments_cons a b hm, h2]
        rfl
  exact key a.length a (Nat.le_refl _)

/-- C8, as stated, fails in four ways.  Where `os.Setenv` refuses the
assignment and the loop drops its error: in the file `=v` the one line does
not begin with `#` and holds a `=`, with the empty KEY before it and VALUE
`v` after it, yet the value of the empty key is `""` after `LoadFile`; in the
file `A=` followed by a NUL byte the value of `A` is `""`.  Where the scanner
stops: in the file of a line of 65536 bytes followed by the line `A=1`, `A`
stays unset.  And where the scanner trims: in the file `K=V\r\n` the text
between the first `=` and the newline is `V\r`, and the value of `K` is
`V`. -/
theorem loadFile_sets_value_counterexample :
    (segments "=v" = ["=v".data] ∧ assignmentOf (String.mk "=v".data) = some ("", "v") ∧
      os.Getenv (LoadFile (oneFile ".env" "=v") ".env" ⟨emptyEnv, []⟩).env "" ≠ "v") ∧
    (segments "A=\x00" = ["A=\x00".data] ∧
      assignmentOf (String.mk "A=\x00".data) = some ("A", "\x00") ∧
      os.Getenv (LoadFile (oneFile ".env" "A=\x00") ".env" ⟨emptyEnv, []⟩).env "A" ≠ "\x00") ∧
    (segments longLineText = [List.replicate 65536 'x', "A=1".data] ∧
      assignmentOf (String.mk "A=1".data) = some ("A", "1") ∧
      (LoadFile (oneFile ".env" longLineText) ".env" ⟨emptyEnv, []⟩).env "A" = none) ∧
    (segments "K=V\r\n" = ["K=V\r".data] ∧
      assignmentOf (String.mk "K=V\r".data) = some ("K", "V\r") ∧
      (LoadFile (oneFile ".env" "K=V\r\n") ".env" ⟨emptyEnv, []⟩).env "K" = some "V") := by
  refine ⟨by decide, by decide, ⟨segments_longLineText, by decide, ?_⟩, by decide⟩
  have hopen : oneFile ".env" longLineText ".env" = .ok longLineText := rfl
  rw [LoadFile_of_open _ hopen, bufio.ScanLines_longLineText]
  rfl

/-- C8, amended. Take a file and a line of it, where the lines are the
segments of the file text that the newlines delimit, each without one
trailing carriage return.  Let the line and every line before it have fewer
than 65536 bytes, and let the line not begin with `#` and read KEY, `=`,
VALUE with no `=` in KEY, where KEY is not empty and neither KEY nor VALUE
holds a NUL byte (`os.Setenv` accepts the pair).  If no later line of the
file assigns the same KEY, then after `LoadFile` the value of KEY in the
environment is VALUE exactly. -/
theorem loadFile_sets_value (fs : FileSystem) (path text : String) (w : World)
    (pre post : List (List Char)) (seg : List Char) (key value : String)
    (hopen : fs path = .ok text)
    (hsegs : segments text = pre ++ seg :: post)
    (hfit : ∀ s ∈ pre ++ [seg], bufio.byteLen s < bufio.MaxScanTokenSize)
    (hseg : lineOf seg = key ++ "=" ++ value)
    (hkey : '=' ∉ key.data)
    (hline : strings.HasPrefix (key ++ "=" ++ value) "#" = false)
    (hlater : ∀ s ∈ post, ∀ v,
      strings.HasPrefix (lineOf s) "#" = false → lineOf s ≠ key ++ "=" ++ v)
    (hvalid : os.validSetenv key value = true) :
    (LoadFile fs path w).env key = some value ∧
    os.Getenv (LoadFile fs path w).env key = value := by
  have hpost : assignedValues key (post.map lineOf) = [] := by
    unfold assignedValues
    rw [List.filterMap_eq_nil_iff]
    intro l hl
    obtain ⟨s, hs, rfl⟩ := List.mem_map.mp hl
    cases hA : assignmentOf (lineOf s) with
    | none => rfl
    | some kv =>
      obtain ⟨k, v1⟩ := kv
      obtain ⟨h1, h2, _⟩ := assignmentOf_eq_some hA
      have hk : k ≠ key := by
        rintro rfl
        exact hlater s hs v1 h2 h1
      simp [hk]
  have hsegs2 : segments text = (pre ++ [seg]) ++ post := by
    rw [hsegs, List.append_assoc, List.singleton_append]
  have hscan := bufio.ScanLines_of_fit text (pre ++ [seg]) post hsegs2 hfit
  have hrest := assignedValues_of_sublist key
    (takeWhile_lines_sublist (fun s => decide (bufio.byteLen s < bufio.MaxScanTokenSize)) post)
    hpost
  have hlast : (assignedValues key (bufio.ScanLines text)).getLast? = some value := by
    have h1 : assignedValues key [key ++ "=" ++ value] = [value] := by
      simp [assignedValues, assignmentOf_append hkey hline]
    rw [hscan, List.map_append, List.map_singleton, hseg, assignedValues_append,
      assignedValues_append, h1, hrest, List.append_nil, List.getLast?_append,
      List.getLast?_singleton]
    rfl
  have hset : (LoadFile fs path w).env key = some value := by
    rw [LoadFile_of_open w hopen]
    exact LoadFile.loop_env_last _ w key value hlast hvalid
  exact ⟨hset, os.Getenv_of_valid _ hvalid hset⟩

/-- C8, amended, at the line `B= x=y "z" ` of a three-line file: the value
keeps its spaces, its `=` and its quotes. -/
theorem loadFile_sets_value_witness :
    segments "A=1\nB= x=y \"z\" \nC=3" = ["A=1".data] ++ "B= x=y \"z\" ".data :: ["C=3".data] ∧
    os.Getenv (LoadFile (oneFile ".env" "A=1\nB= x=y \"z\" \nC=3") ".env" ⟨emptyEnv, []⟩).env "B"
      = " x=y \"z\" " :=
  ⟨by decide,
   (loadFile_sets_value (oneFile ".env" "A=1\nB= x=y \"z\" \nC=3") ".env"
      "A=1\nB= x=y \"z\" \nC=3" ⟨emptyEnv, []⟩ ["A=1".data] ["C=3".data] "B= x=y \"z\" ".data
      "B" " x=y \"z\" "
      rfl (by decide) (by decide) (by decide) (by decide) (by decide)
      (by
        intro s hs v _ h
        rw [List.mem_singleton.mp hs] at h
        have hd := congrArg (fun s : String => s.data.head?) h
        simp only [String.data_append] at hd
        exact absurd (Option.some.inj hd) (by decide))
      (by decide)).2⟩

/-- C9, as stated, fails in two ways.  Where `os.Setenv` refuses the last
assignment: in the file of the lines `A=1` and `A=` with a NUL byte the key
`A` has two assignment lines, and after `LoadFile` its value is that of the
first, `1`; in the file of the lines `=a` and `=b` the empty key has two
assignment lines and no value.  And where the scanner stops: in the file of
the line `A=1`, a line of 65536 bytes and the line `A=2`, the key `A` has two
assignment lines, and after `LoadFile` its value is that of the first. -/
theorem loadFile_last_wins_counterexample :
    (assignedValues "A" (segmentLines "A=1\nA=\x00") = ["1", "\x00"] ∧
      os.Getenv (LoadFile (oneFile ".env" "A=1\nA=\x00") ".env" ⟨emptyEnv, []⟩).env "A" = "1") ∧
    (assignedValues "" (segmentLines "=a\n=b") = ["a", "b"] ∧
      os.Getenv (LoadFile (oneFile ".env" "=a\n=b") ".env" ⟨emptyEnv, []⟩).env "" ≠ "b") ∧
    (segments longLineBetween = ["A=1".data, List.replicate 65536 'x', "A=2".data] ∧
      assignedValues "A" [lineOf "A=1".data, lineOf "A=2".data] = ["1", "2"] ∧
      os.Getenv (LoadFile (oneFile ".env" longLineBetween) ".env" ⟨emptyEnv, []⟩).env "A"
        = "1") := by
  refine ⟨by decide, by decide, segments_longLineBetween, by decide, ?_⟩
  have hopen : oneFile ".env" longLineBetween ".env" = .ok longLineBetween := rfl
  rw [LoadFile_of_open _ hopen, bufio.ScanLines_longLineBetween]
  decide

/-- C9, amended. Take a file, with its lines the segments of the file text
that the newlines delimit, each without one trailing carriage return, and a
key `K` that has assignment lines in it, two or more or just one, the last of
them giving it the value `v`.  Let every line up to that last assignment line
(the lines `pre`, after which no line assigns `K`) have fewer than 65536
bytes, and let `K` be not empty and neither `K` nor `v` hold a NUL byte
(`os.Setenv` accepts the pair).  Then after `LoadFile` the value of `K` in
the environment is `v`, whatever the environment held before. -/
theorem loadFile_last_wins (fs : FileSystem) (path text : String) (w : World)
    (pre post : List (List Char)) (K v : String)
    (hopen : fs path = .ok text)
    (hsegs : segments text = pre ++ post)
    (hfit : ∀ s ∈ pre, bufio.byteLen s < bufio.MaxScanTokenSize)
    (hlast : (assignedValues K (pre.map lineOf)).getLast? = some v)
    (hpost : assignedValues K (post.map lineOf) = [])
    (hvalid : os.validSetenv K v = true) :
    (LoadFile fs path w).env K = some v ∧ os.Getenv (LoadFile fs path w).env K = v := by
  have hscan := bufio.ScanLines_of_fit text pre post hsegs hfit
  have hrest := assignedValues_of_sublist K
    (takeWhile_lines_sublist (fun s => decide (bufio.byteLen s < bufio.MaxScanTokenSize)) post)
    hpost
  have hlast2 : (assignedValues K (bufio.ScanLines text)).getLast? = some v := by
    rw [hscan, assignedValues_append, hrest, List.append_nil]
    exact hlast
  have hset : (LoadFile fs path w).env K = some v := by
    rw [LoadFile_of_open w hopen]
    exact LoadFile.loop_env_last _ w K v hlast2 hvalid
  exact ⟨hset, os.Getenv_of_valid _ hvalid hset⟩

/-- C9, amended, at a file that assigns `A` three times, loaded into an
environment that already holds `A`. -/
theorem loadFile_last_wins_witness :
    segments "A=1\nB=2\nA=3\n#A=4\nA=5\nC=6\n"
      = ["A=1".data, "B=2".data, "A=3".data, "#A=4".data, "A=5".data] ++ ["C=6".data] ∧
    assignedValues "A" (segmentLines "A=1\nB=2\nA=3\n#A=4\nA=5\nC=6\n") = ["1", "3", "5"] ∧
    os.Getenv (LoadFile (oneFile ".env" "A=1\nB=2\nA=3\n#A=4\nA=5\nC=6\n") ".env"
      ⟨singleEnv "A" "0", []⟩).env "A" = "5" :=
  ⟨by decide, by decide,
   (loadFile_last_wins (oneFile ".env" "A=1\nB=2\nA=3\n#A=4\nA=5\nC=6\n") ".env"
      "A=1\nB=2\nA=3\n#A=4\nA=5\nC=6\n" ⟨singleEnv "A" "0", []⟩
      ["A=1".data, "B=2".data, "A=3".data, "#A=4".data, "A=5".data] ["C=6".data] "A" "5"
      rfl (by decide) (by decide) (by decide) (by decide) (by decide)).2⟩

/-- C10, as stated, fails where the scanner stops.  In the file of a line of
65536 bytes `x`, which holds no `=`, followed by the line `A=1`, loading does
not continue with the following line: `A` stays unset, while the file of the
line `A=1` alone sets it. -/
theorem loadFile_skips_line_counterexample :
    segments longLineText = [List.replicate 65536 'x', "A=1".data] ∧
    '=' ∉ (lineOf (List.replicate 65536 'x')).data ∧
    (LoadFile (oneFile ".env" longLineText) ".env" ⟨emptyEnv, []⟩).env "A" = none ∧
    segments "A=1" = ["A=1".data] ∧
    (LoadFile (oneFile ".env" "A=1") ".env" ⟨emptyEnv, []⟩).env "A" = some "1" := by
  refine ⟨segments_longLineText, ?_, ?_, by decide, by decide⟩
  · intro h
    exact absurd (List.eq_of_mem_replicate (lineOf_subset _ _ h)) (by decide)
  · have hopen : oneFile ".env" longLineText ".env" = .ok longLineText := rfl
    rw [LoadFile_of_open _ hopen, bufio.ScanLines_longLineText]
    rfl

/-- C10, amended. Take a file and a line of it, where the lines are the
segments of the file text that the newlines delimit, each without one
trailing carriage return, and let the line begin with `#` (even with a `=` in
it) or hold no `=` (the empty line too).  A file of that one line leaves the
environment as it was.  And when the line and every line before it have fewer
than 65536 bytes, loading continues with the following lines: the file leaves
the environment that the file without the line leaves, which is, when the
following lines have fewer than 65536 bytes too, the environment after the
loop over the other lines. -/
theorem loadFile_skips_line (fs : FileSystem) (path text : String) (w : World)
    (pre post : List (List Char)) (seg : List Char)
    (hopen : fs path = .ok text)
    (hsegs : segments text = pre ++ seg :: post)
    (hline : strings.HasPrefix (lineOf seg) "#" = true ∨ '=' ∉ (lineOf seg).data) :
    (pre = [] → post = [] → (LoadFile fs path w).env = w.env) ∧
    ((∀ s ∈ pre ++ [seg], bufio.byteLen s < bufio.MaxScanTokenSize) →
      (∀ path2 text2, fs path2 = .ok text2 → segments text2 = pre ++ post →
        (LoadFile fs path w).env = (LoadFile fs path2 w).env) ∧
      ((∀ s ∈ post, bufio.byteLen s < bufio.MaxScanTokenSize) →
        (LoadFile fs path w).env = (LoadFile.loop w ((pre ++ post).map lineOf)).env)) := by
  have hnone := assignmentOf_eq_none hline
  have hstep : ∀ w1 : World, (LoadFile.step w1 (lineOf seg)).env = w1.env := by
    intro w1
    rw [LoadFile.step_env, hnone]
  refine ⟨?_, ?_⟩
  · rintro rfl rfl
    rw [LoadFile_of_open w hopen, bufio.ScanLines_eq_takeWhile, hsegs]
    simp only [List.nil_append, List.takeWhile_cons, List.takeWhile_nil]
    split
    · exact hstep w
    · rfl
  · intro hfit
    have hfitpre : ∀ s ∈ pre, bufio.byteLen s < bufio.MaxScanTokenSize :=
      fun s hs => hfit s (List.mem_append_left _ hs)
    have hsegs2 : segments text = (pre ++ [seg]) ++ post := by
      rw [hsegs, List.append_assoc, List.singleton_append]
    have hscan := bufio.ScanLines_of_fit text (pre ++ [seg]) post hsegs2 hfit
    have hall : ∀ rest : List String,
        (LoadFile.loop w ((pre ++ [seg]).map lineOf ++ rest)).env
          = (LoadFile.loop w (pre.map lineOf ++ rest)).env := by
      intro rest
      rw [List.map_append, List.map_singleton, LoadFile.loop_append, LoadFile.loop_append,
        LoadFile.loop_append]
      exact LoadFile.loop_env_congr rest _ _ (hstep _)
    refine ⟨?_, ?_⟩
    · intro path2 text2 hopen2 hsegs3
      rw [LoadFile_of_open w hopen, LoadFile_of_open w hopen2, hscan,
        bufio.ScanLines_of_fit text2 pre post hsegs3 hfitpre]
      exact hall _
    · intro hfitpost
      rw [LoadFile_of_open w hopen, hscan, hall,
        List.takeWhile_eq_self_iff.mpr (fun s hs => decide_eq_true (hfitpost s hs)),
        List.map_append]

/-- C10, amended, at a file whose first line is the comment `#A=1` and whose
third line is empty: only `B` is set, as in the file without the comment. -/
theorem loadFile_skips_line_witness :
    segments "#A=1\nB=2\n\nnoequals" = [] ++ "#A=1".data :: ["B=2".data, [], "noequals".data] ∧
    segments "B=2\n\nnoequals" = [] ++ ["B=2".data, [], "noequals".data] ∧
    (LoadFile (threeFiles ".env" "#A=1\nB=2\n\nnoequals" "b" "B=2\n\nnoequals" "c" "") ".env"
        ⟨emptyEnv, []⟩).env
      = (LoadFile (threeFiles ".env" "#A=1\nB=2\n\nnoequals" "b" "B=2\n\nnoequals" "c" "") "b"
        ⟨emptyEnv, []⟩).env ∧
    (LoadFile (threeFiles ".env" "#A=1\nB=2\n\nnoequals" "b" "B=2\n\nnoequals" "c" "") ".env"
        ⟨emptyEnv, []⟩).env "B" = some "2" :=
  ⟨by decide, by decide,
   ((loadFile_skips_line (threeFiles ".env" "#A=1\nB=2\n\nnoequals" "b" "B=2\n\nnoequals" "c" "")
      ".env" "#A=1\nB=2\n\nnoequals" ⟨emptyEnv, []⟩ [] ["B=2".data, [], "noequals".data]
      "#A=1".data rfl (by decide) (Or.inl (by decide))).2 (by decide)).1
      "b" "B=2\n\nnoequals" rfl (by decide),
   by decide⟩

/-- C19, as stated, fails where the scanner stops.  Let the file `a` be a
line of 65536 bytes, the file `b` the line `A=1`, and the file `ab` the lines
of `a` followed by those of `b`.  Loading `ab` leaves `A` unset, while
loading `a` and then `b` sets it. -/
theorem loadFile_sequential_counterexample :
    segments longLineText = segments longLineOnly ++ segments "A=1" ∧
    (LoadFile (threeFiles "a" longLineOnly "b" "A=1" "ab" longLineText) "ab"
      ⟨emptyEnv, []⟩).env "A" = none ∧
    (LoadFile (threeFiles "a" longLineOnly "b" "A=1" "ab" longLineText) "b"
      (LoadFile (threeFiles "a" longLineOnly "b" "A=1" "ab" longLineText) "a"
        ⟨emptyEnv, []⟩)).env "A" = some "1" := by
  have hA : threeFiles "a" longLineOnly "b" "A=1" "ab" longLineText "a" = .ok longLineOnly := rfl
  have hB : threeFiles "a" longLineOnly "b" "A=1" "ab" longLineText "b" = .ok "A=1" := rfl
  have hAB : threeFiles "a" longLineOnly "b" "A=1" "ab" longLineText "ab" = .ok longLineText :=
    rfl
  have hb : segments "A=1" = ["A=1".data] := by decide
  refine ⟨?_, ?_, ?_⟩
  · rw [segments_longLineText, segments_longLineOnly, hb]
    rfl
  · rw [LoadFile_of_open _ hAB, bufio.ScanLines_longLineText]
    rfl
  · rw [LoadFile_of_open _ hA, bufio.ScanLines_longLineOnly, LoadFile_of_open _ hB]
    decide

/-- C19, amended. Loading is sequential and idempotent.  Take three files,
with their lines the segments of the file text that the newlines delimit, and
let the lines of the third be those of the first followed by those of the
second.  When every line of the first has fewer than 65536 bytes, loading the
third is loading the first and then the second on the result.  And loading
the same file twice in a row leaves the environment that loading it once
leaves. -/
theorem loadFile_sequential (w : World) :
    (∀ (fs : FileSystem) (pathA pathB pathAB textA textB textAB : String),
      fs pathA = .ok textA → fs pathB = .ok textB → fs pathAB = .ok textAB →
      segments textAB = segments textA ++ segments textB →
      (∀ s ∈ segments textA, bufio.byteLen s < bufio.MaxScanTokenSize) →
      LoadFile fs pathAB w = LoadFile fs pathB (LoadFile fs pathA w)) ∧
    (∀ (fs : FileSystem) (path : String),
      (LoadFile fs path (LoadFile fs path w)).env = (LoadFile fs path w).env) := by
  refine ⟨?_, ?_⟩
  · intro fs pathA pathB pathAB textA textB textAB hA hB hAB hsegs hfit
    rw [LoadFile_of_open w hAB, LoadFile_of_open w hA, LoadFile_of_open _ hB,
      bufio.ScanLines_of_fit textAB _ _ hsegs hfit,
      bufio.ScanLines_of_fit textA (segments textA) [] (List.append_nil _).symm hfit,
      bufio.ScanLines_eq_takeWhile textB, LoadFile.loop_append]
    simp
  · intro fs path
    cases hf : fs path with
    | error err => rw [LoadFile_of_error _ hf, LoadFile_of_error w hf]
    | ok text =>
      rw [LoadFile_of_open _ hf, LoadFile_of_open w hf]
      exact LoadFile.loop_env_idempotent _ w

/-- C19, amended, at the files `a` (`A=1`), `b` (`A=2`, `B=3`) and `ab` (the
three lines in a row). -/
theorem loadFile_sequential_witness :
    segments "A=1\nA=2\nB=3" = segments "A=1\n" ++ segments "A=2\nB=3" ∧
    LoadFile (threeFiles "a" "A=1\n" "b" "A=2\nB=3" "ab" "A=1\nA=2\nB=3") "ab" ⟨emptyEnv, []⟩
      = LoadFile (threeFiles "a" "A=1\n" "b" "A=2\nB=3" "ab" "A=1\nA=2\nB=3") "b"
          (LoadFile (threeFiles "a" "A=1\n" "b" "A=2\nB=3" "ab" "A=1\nA=2\nB=3") "a"
            ⟨emptyEnv, []⟩) ∧
    os.Getenv (LoadFile (threeFiles "a" "A=1\n" "b" "A=2\nB=3" "ab" "A=1\nA=2\nB=3") "ab"
      ⟨emptyEnv, []⟩).env "A" = "2" :=
  ⟨by decide,
   (loadFile_sequential ⟨emptyEnv, []⟩).1
     (threeFiles "a" "A=1\n" "b" "A=2\nB=3" "ab" "A=1\nA=2\nB=3") "a" "b" "ab"
     "A=1\n" "A=2\nB=3" "A=1\nA=2\nB=3" rfl rfl rfl (by decide) (by decide),
   by decide⟩

/-! ## `strconv.Atoi` reads signed decimal integers -/

/-- A decimal digit has a value of at most nine. -/
theorem strconv.isDigit_le {c : Char} (h : strconv.isDigit c = true) : c.toNat - 48 ≤ 9 := by
  simp only [strconv.isDigit, Bool.and_eq_true, decide_eq_true_eq] at h
  omega

/-- More digits do not make the number smaller. -/
theorem decimalFrom_ge (ds : List Char) (n : Nat) : n ≤ decimalFrom ds n := by
  induction ds generalizing n with
  | nil => exact Nat.le_refl _
  | cons c cs ih =>
    have h1 := ih (n * 10 + (c.toNat - 48))
    have h2 : n ≤ n * 10 + (c.toNat - 48) := by omega
    exact Nat.le_trans h2 h1

/-- A number of `k` more digits stays below the next power of ten. -/
theorem decimalFrom_lt (ds : List Char) (n : Nat) (h : ds.all strconv.isDigit = true) :
    decimalFrom ds n < (n + 1) * 10 ^ ds.length := by
  induction ds generalizing n with
  | nil => simp [decimalFrom]
  | cons c cs ih =>
    simp only [List.all_cons, Bool.and_eq_true] at h
    have hd := strconv.isDigit_le h.1
    have h1 := ih (n * 10 + (c.toNat - 48)) h.2
    have h2 : (n * 10 + (c.toNat - 48) + 1) * 10 ^ cs.length ≤ (n + 1) * 10 ^ (cs.length + 1) := by
      rw [Nat.pow_succ, Nat.mul_comm (10 ^ cs.length) 10, ← Nat.mul_assoc]
      exact Nat.mul_le_mul_right _ (by omega)
    simp only [decimalFrom, List.length_cons]
    exact Nat.lt_of_lt_of_le h1 h2

/-- The fast path of `strconv.Atoi` on a run of digits. -/
theorem strconv.Atoi.fast_digits (ds : List Char) (n : Nat)
    (h : ds.all strconv.isDigit = true) : strconv.Atoi.fast ds n = some (decimalFrom ds n) := by
  induction ds generalizing n with
  | nil => rfl
  | cons c cs ih =>
    simp only [List.all_cons, Bool.and_eq_true] at h
    simp only [strconv.Atoi.fast, decimalFrom]
    rw [if_pos h.1, ih _ h.2]

/-- The fast path of `strconv.Atoi` at a byte that is not a digit. -/
theorem strconv.Atoi.fast_nondigit (ds : List Char) (n : Nat)
    (h : ds.all strconv.isDigit = false) : strconv.Atoi.fast ds n = none := by
  induction ds generalizing n with
  | nil => exact nomatch h
  | cons c cs ih =>
    simp only [strconv.Atoi.fast]
    cases hc : strconv.isDigit c with
    | false => simp
    | true =>
      simp only [List.all_cons, hc, Bool.true_and] at h
      simp only [if_true]
      exact ih _ h

/-- The digit loop of `strconv.ParseUint` on a run of digits: their number
when it fits 64 bits, the range error when it does not. -/
theorem strconv.ParseUint.loop_digits (s0 : String) (ds : List Char) (n : Nat)
    (h : ds.all strconv.isDigit = true) (hn : n < 2 ^ 64) :
    strconv.ParseUint.loop s0 ds n =
      if decimalFrom ds n < 2 ^ 64 then (decimalFrom ds n, none)
      else (2 ^ 64 - 1, some (strconv.rangeError "ParseUint" s0)) := by
  induction ds generalizing n with
  | nil =>
    simp only [strconv.ParseUint.loop, decimalFrom]
    rw [if_pos hn]
  | cons c cs ih =>
    simp only [List.all_cons, Bool.and_eq_true] at h
    have hd := strconv.isDigit_le h.1
    have hge := decimalFrom_ge cs (n * 10 + (c.toNat - 48))
    simp only [strconv.ParseUint.loop, decimalFrom]
    rw [if_pos h.1]
    by_cases hcut : n ≥ (2 ^ 64 - 1) / 10 + 1
    · rw [if_pos hcut, if_neg (by omega)]
    · rw [if_neg hcut]
      have h10 : n * 10 % 2 ^ 64 = n * 10 := Nat.mod_eq_of_lt (by omega)
      simp only [h10]
      by_cases hfit : n * 10 + (c.toNat - 48) < 2 ^ 64
      · have h1 : (n * 10 + (c.toNat - 48)) % 2 ^ 64 = n * 10 + (c.toNat - 48) :=
          Nat.mod_eq_of_lt hfit
        rw [h1, if_neg (by omega)]
        exact ih _ h.2 hfit
      · have h1 : (n * 10 + (c.toNat - 48)) % 2 ^ 64 = n * 10 + (c.toNat - 48) - 2 ^ 64 := by
          rw [Nat.mod_eq_sub_mod (by omega), Nat.mod_eq_of_lt (by omega)]
        rw [h1, if_pos (by omega), if_neg (by omega)]

/-- The digit loop of `strconv.ParseUint` ends without an error, with the
syntax error and the value 0, or with the range error and the largest
value. -/
theorem strconv.ParseUint.loop_cases (s0 : String) (ds : List Char) (n : Nat) :
    (strconv.ParseUint.loop s0 ds n).2 = none ∨
    strconv.ParseUint.loop s0 ds n = (0, some (strconv.syntaxError "ParseUint" s0)) ∨
    strconv.ParseUint.loop s0 ds n = (2 ^ 64 - 1, some (strconv.rangeError "ParseUint" s0)) := by
  induction ds generalizing n with
  | nil => exact Or.inl rfl
  | cons c cs ih =>
    simp only [strconv.ParseUint.loop]
    split
    · split
      · exact Or.inr (Or.inr rfl)
      · split
        · exact Or.inr (Or.inr rfl)
        · exact ih _
    · exact Or.inr (Or.inl rfl)

/-- The digit loop of `strconv.ParseUint` fails at a byte that is not a
digit, if not before. -/
theorem strconv.ParseUint.loop_nondigit (s0 : String) (ds : List Char) (n : Nat)
    (h : ds.all strconv.isDigit = false) : (strconv.ParseUint.loop s0 ds n).2 ≠ none := by
  induction ds generalizing n with
  | nil => exact nomatch h
  | cons c cs ih =>
    simp only [strconv.ParseUint.loop]
    cases hc : strconv.isDigit c with
    | false => simp
    | true =>
      simp only [List.all_cons, hc, Bool.true_and] at h
      simp only [if_true]
      split
      · simp
      · split
        · simp
        · exact ih _ h

/-- What `strconv.ParseInt` makes of the result of `strconv.ParseUint` on the
text after the sign. -/
theorem strconv.ParseInt_cons (c : Char) (cs : List Char) (un : Nat)
    (err : Option strconv.NumError)
    (h : strconv.ParseUint (String.mk (if c = '+' ∨ c = '-' then cs else c :: cs)) = (un, err)) :
    strconv.ParseInt (String.mk (c :: cs)) =
      if (∃ e, err = some e ∧ e.Err = strconv.ErrKind.ErrSyntax) then
        (0, some (strconv.syntaxError "ParseInt" (String.mk (c :: cs))))
      else if c ≠ '-' ∧ un ≥ 2 ^ 63 then
        (((2 ^ 63 - 1 : Nat) : Int), some (strconv.rangeError "ParseInt" (String.mk (c :: cs))))
      else if c = '-' ∧ un > 2 ^ 63 then
        (-((2 ^ 63 : Nat) : Int), some (strconv.rangeError "ParseInt" (String.mk (c :: cs))))
      else (if c = '-' then -(un : Int) else (un : Int), none) := by
  have hs : ¬ (String.mk (c :: cs) = "") := by
    intro h0
    have := congrArg String.data h0
    exact nomatch this
  unfold strconv.ParseInt
  rw [if_neg hs]
  by_cases hp : c = '+'
  · subst hp
    simp only [true_or, if_true] at h
    rcases err with _ | ⟨f, num, _ | _⟩ <;> simp [h, strconv.IntSize]
  · by_cases hm : c = '-'
    · subst hm
      simp only [or_true, if_true] at h
      rcases err with _ | ⟨f, num, _ | _⟩ <;> simp [h, strconv.IntSize]
    · simp only [hp, hm, or_self, if_false] at h
      rcases err with _ | ⟨f, num, _ | _⟩ <;> simp [h, hp, hm, strconv.IntSize]
/-- `strconv.ParseUint` on a run of one or more digits. -/
theorem strconv.ParseUint_digits (ds : List Char) (hne : ds ≠ [])
    (h : ds.all strconv.isDigit = true) :
    strconv.ParseUint (String.mk ds) =
      if decimalValue ds < 2 ^ 64 then (decimalValue ds, none)
      else (2 ^ 64 - 1, some (strconv.rangeError "ParseUint" (String.mk ds))) := by
  have hs : ¬ (String.mk ds = "") := fun h0 => hne (congrArg String.data h0)
  unfold strconv.ParseUint
  rw [if_neg hs]
  exact strconv.ParseUint.loop_digits (String.mk ds) ds 0 h (by decide)

/-- `strconv.ParseUint` on a text that is empty or holds a byte that is not
a digit: an error, with the largest value when it is the range error. -/
theorem strconv.ParseUint_bad (ds : List Char)
    (h : ds = [] ∨ ds.all strconv.isDigit = false) :
    ∃ un e, strconv.ParseUint (String.mk ds) = (un, some e) ∧
      (e.Err = strconv.ErrKind.ErrRange → un = 2 ^ 64 - 1) := by
  by_cases hne : ds = []
  · subst hne
    exact ⟨0, strconv.syntaxError "ParseUint" "", rfl, fun he => nomatch he⟩
  · have hd : ds.all strconv.isDigit = false := h.resolve_left hne
    have hs : ¬ (String.mk ds = "") := fun h0 => hne (congrArg String.data h0)
    unfold strconv.ParseUint
    rw [if_neg hs]
    rcases strconv.ParseUint.loop_cases (String.mk ds) ds 0 with h1 | h1 | h1
    · exact absurd h1 (strconv.ParseUint.loop_nondigit _ ds 0 hd)
    · exact ⟨_, _, h1, fun he => nomatch he⟩
    · exact ⟨_, _, h1, fun _ => rfl⟩

/-- `strconv.ParseInt` on an optional sign and one or more digits that denote
a number of the `int64` range. -/
theorem strconv.ParseInt_in_range (c : Char) (cs ds : List Char)
    (hds : ds = if c = '+' ∨ c = '-' then cs else c :: cs)
    (hne : ds ≠ []) (h : ds.all strconv.isDigit = true)
    (hr : if c = '-' then decimalValue ds ≤ 2 ^ 63 else decimalValue ds < 2 ^ 63) :
    strconv.ParseInt (String.mk (c :: cs))
      = (if c = '-' then -(decimalValue ds : Int) else (decimalValue ds : Int), none) := by
  have hu := strconv.ParseUint_digits ds hne h
  have hlt : decimalValue ds < 2 ^ 64 := by
    split at hr <;> omega
  rw [if_pos hlt, hds] at hu
  rw [strconv.ParseInt_cons c cs _ _ hu, ← hds]
  by_cases hm : c = '-'
  · rw [if_pos hm] at hr
    simp only [hm, ne_eq, not_true_eq_false, false_and, if_false, true_and, if_true]
    rw [if_neg (by simp), if_neg (by omega)]
  · rw [if_neg hm] at hr
    simp only [hm, ne_eq, not_false_eq_true, true_and, false_and, if_false]
    rw [if_neg (by simp), if_neg (by omega)]

/-- `strconv.ParseInt` on an optional sign and one or more digits that denote
a number outside the `int64` range: the range error. -/
theorem strconv.ParseInt_out_of_range (c : Char) (cs ds : List Char)
    (hds : ds = if c = '+' ∨ c = '-' then cs else c :: cs)
    (hne : ds ≠ []) (h : ds.all strconv.isDigit = true)
    (hr : ¬ (if c = '-' then decimalValue ds ≤ 2 ^ 63 else decimalValue ds < 2 ^ 63)) :
    ∃ x, strconv.ParseInt (String.mk (c :: cs))
      = (x, some (strconv.rangeError "ParseInt" (String.mk (c :: cs)))) := by
  have hu := strconv.ParseUint_digits ds hne h
  rw [hds] at hu
  by_cases hlt : decimalValue ds < 2 ^ 64
  · rw [← hds, if_pos hlt, hds] at hu
    rw [strconv.ParseInt_cons c cs _ _ hu, ← hds]
    by_cases hm : c = '-'
    · rw [if_pos hm] at hr
      simp only [hm, ne_eq, not_true_eq_false, false_and, if_false, true_and]
      rw [if_neg (by simp), if_pos (by omega)]
      exact ⟨_, rfl⟩
    · rw [if_neg hm] at hr
      simp only [hm, ne_eq, not_false_eq_true, true_and]
      rw [if_neg (by simp), if_pos (by omega)]
      exact ⟨_, rfl⟩
  · rw [← hds, if_neg hlt, hds] at hu
    rw [strconv.ParseInt_cons c cs _ _ hu]
    by_cases hm : c = '-'
    · simp only [hm, ne_eq, not_true_eq_false, false_and, if_false, true_and]
      rw [if_neg (by simp [strconv.rangeError]), if_pos (by decide)]
      exact ⟨_, rfl⟩
    · simp only [hm, ne_eq, not_false_eq_true, true_and]
      rw [if_neg (by simp [strconv.rangeError]), if_pos (by decide)]
      exact ⟨_, rfl⟩

/-- `strconv.ParseInt` on a text that is not an optional sign followed by one
or more digits: an error. -/
theorem strconv.ParseInt_bad (c : Char) (cs ds : List Char)
    (hds : ds = if c = '+' ∨ c = '-' then cs else c :: cs)
    (h : ds = [] ∨ ds.all strconv.isDigit = false) :
    ∃ x e, strconv.ParseInt (String.mk (c :: cs)) = (x, some e) := by
  obtain ⟨un, e, hu, hrange⟩ := strconv.ParseUint_bad ds h
  rw [hds] at hu
  rw [strconv.ParseInt_cons c cs _ _ hu]
  rcases e with ⟨f, num, _ | _⟩
  · rw [if_pos ⟨_, rfl, rfl⟩]
    exact ⟨_, _, rfl⟩
  · have hun : un = 2 ^ 64 - 1 := hrange rfl
    subst hun
    rw [if_neg (by simp)]
    by_cases hm : c = '-'
    · simp only [hm, ne_eq, not_true_eq_false, false_and, if_false, true_and]
      rw [if_pos (by decide)]
      exact ⟨_, _, rfl⟩
    · simp only [hm, ne_eq, not_false_eq_true, true_and]
      rw [if_pos (by decide)]
      exact ⟨_, _, rfl⟩
/-- A text has at least as many bytes as characters. -/
theorem utf8ByteSize_ge_length (l : List Char) : l.length ≤ (String.mk l).utf8ByteSize := by
  show l.length ≤ String.utf8ByteSize.go l
  induction l with
  | nil => exact Nat.le_refl _
  | cons c cs ih =>
    have := Char.utf8Size_pos c
    simp only [String.utf8ByteSize.go, List.length_cons]
    omega

/-- The fast path of `strconv.Atoi`, for a text of 1 to 18 bytes. -/
theorem strconv.Atoi_fast (c : Char) (cs ds : List Char)
    (hds : ds = if c = '+' ∨ c = '-' then cs else c :: cs)
    (hlen : 0 < (String.mk (c :: cs)).utf8ByteSize ∧ (String.mk (c :: cs)).utf8ByteSize < 19) :
    strconv.Atoi (String.mk (c :: cs)) =
      if ds ≠ [] ∧ ds.all strconv.isDigit = true then
        (if c = '-' then -(decimalValue ds : Int) else (decimalValue ds : Int), none)
      else (0, some (strconv.syntaxError "Atoi" (String.mk (c :: cs)))) := by
  have hdig : (if c = '-' ∨ c = '+' then cs else c :: cs) = ds := by
    rw [hds]
    by_cases hp : c = '+' <;> by_cases hm : c = '-' <;> simp [hp, hm]
  unfold strconv.Atoi
  simp only [hlen, and_self, if_true, hdig]
  by_cases hne : ds = []
  · subst hne
    simp
  · have hl : ¬ ds.length < 1 := by
      cases ds with
      | nil => exact absurd rfl hne
      | cons a as => simp
    rw [if_neg hl]
    cases hall : ds.all strconv.isDigit with
    | true =>
      rw [strconv.Atoi.fast_digits ds 0 hall]
      simp [hne, decimalValue]
    | false =>
      rw [strconv.Atoi.fast_nondigit ds 0 hall]
      simp

/-- The slow path of `strconv.Atoi`: `strconv.ParseInt`, with the name of the
function changed in the error. -/
theorem strconv.Atoi_slow (s : String)
    (hlen : ¬ (0 < s.utf8ByteSize ∧ s.utf8ByteSize < 19)) :
    strconv.Atoi s =
      ((strconv.ParseInt s).1, (strconv.ParseInt s).2.map fun e => { e with Func := "Atoi" }) := by
  unfold strconv.Atoi
  simp only [hlen, if_false]

/-- What `signedDecimal` reads in a text that it accepts. -/
theorem signedDecimal_eq_some {v : String} {n : Int} (h : signedDecimal v = some n) :
    ∃ c cs ds, v = String.mk (c :: cs) ∧ ds = (if c = '+' ∨ c = '-' then cs else c :: cs) ∧
      ds ≠ [] ∧ ds.all strconv.isDigit = true ∧
      n = (if c = '-' then -(decimalValue ds : Int) else (decimalValue ds : Int)) := by
  rcases v with ⟨_ | ⟨c, cs⟩⟩
  · exact nomatch h
  · simp only [signedDecimal] at h
    by_cases hok : (if c = '+' ∨ c = '-' then cs else c :: cs) ≠ [] ∧
        (if c = '+' ∨ c = '-' then cs else c :: cs).all strconv.isDigit = true
    · rw [if_pos hok] at h
      exact ⟨c, cs, _, rfl, rfl, hok.1, hok.2, (Option.some.inj h).symm⟩
    · rw [if_neg hok] at h
      exact nomatch h

/-- What `signedDecimal` finds in a text that it rejects. -/
theorem signedDecimal_eq_none {v : String} (h : signedDecimal v = none) :
    v = "" ∨ ∃ c cs ds, v = String.mk (c :: cs) ∧
      ds = (if c = '+' ∨ c = '-' then cs else c :: cs) ∧
      (ds = [] ∨ ds.all strconv.isDigit = false) := by
  rcases v with ⟨_ | ⟨c, cs⟩⟩
  · exact Or.inl rfl
  · right
    simp only [signedDecimal] at h
    by_cases hok : (if c = '+' ∨ c = '-' then cs else c :: cs) ≠ [] ∧
        (if c = '+' ∨ c = '-' then cs else c :: cs).all strconv.isDigit = true
    · rw [if_pos hok] at h
      exact nomatch h
    · have hbad := hok
      refine ⟨c, cs, _, rfl, rfl, ?_⟩
      by_cases hne : (if c = '+' ∨ c = '-' then cs else c :: cs) = []
      · exact Or.inl hne
      · right
        cases hall : (if c = '+' ∨ c = '-' then cs else c :: cs).all strconv.isDigit with
        | false => rfl
        | true => exact absurd ⟨hne, hall⟩ hbad

/-- `strconv.Atoi` returns the integer that an optional sign and one or more
digits denote, when it lies in the `int64` range. -/
theorem strconv.Atoi_in_range (v : String) (n : Int) (h : signedDecimal v = some n)
    (hlo : -(2 ^ 63 : Int) ≤ n) (hhi : n < 2 ^ 63) : strconv.Atoi v = (n, none) := by
  obtain ⟨c, cs, ds, rfl, hds, hne, hall, rfl⟩ := signedDecimal_eq_some h
  by_cases hlen : 0 < (String.mk (c :: cs)).utf8ByteSize ∧ (String.mk (c :: cs)).utf8ByteSize < 19
  · rw [strconv.Atoi_fast c cs ds hds hlen, if_pos ⟨hne, hall⟩]
  · have hr : if c = '-' then decimalValue ds ≤ 2 ^ 63 else decimalValue ds < 2 ^ 63 := by
      by_cases hm : c = '-'
      · rw [if_pos hm] at hlo
        rw [if_pos hm]
        omega
      · rw [if_neg hm] at hhi
        rw [if_neg hm]
        omega
    rw [strconv.Atoi_slow _ hlen, strconv.ParseInt_in_range c cs ds hds hne hall hr]
    rfl

/-- `strconv.Atoi` fails with the range error on an optional sign and digits
that denote an integer outside the `int64` range. -/
theorem strconv.Atoi_out_of_range (v : String) (n : Int) (h : signedDecimal v = some n)
    (hout : n < -(2 ^ 63 : Int) ∨ (2 ^ 63 : Int) ≤ n) :
    ∃ x, strconv.Atoi v = (x, some (strconv.rangeError "Atoi" v)) := by
  obtain ⟨c, cs, ds, rfl, hds, hne, hall, rfl⟩ := signedDecimal_eq_some h
  by_cases hlen : 0 < (String.mk (c :: cs)).utf8ByteSize ∧ (String.mk (c :: cs)).utf8ByteSize < 19
  · exfalso
    have h1 := utf8ByteSize_ge_length (c :: cs)
    have h2 : ds.length ≤ (c :: cs).length := by
      rw [hds]
      split <;> simp
    have h3 := decimalFrom_lt ds 0 hall
    have h4 : 10 ^ ds.length ≤ 10 ^ 18 := Nat.pow_le_pow_right (by decide) (by omega)
    have h5 : decimalValue ds < 10 ^ 18 := by
      unfold decimalValue
      omega
    split at hout <;> omega
  · have hr : ¬ (if c = '-' then decimalValue ds ≤ 2 ^ 63 else decimalValue ds < 2 ^ 63) := by
      by_cases hm : c = '-'
      · rw [if_pos hm] at hout
        rw [if_pos hm]
        omega
      · rw [if_neg hm] at hout
        rw [if_neg hm]
        omega
    obtain ⟨x, hx⟩ := strconv.ParseInt_out_of_range c cs ds hds hne hall hr
    rw [strconv.Atoi_slow _ hlen, hx]
    exact ⟨x, rfl⟩

/-- `strconv.Atoi` fails on a text that is not an optional sign followed by
one or more digits. -/
theorem strconv.Atoi_bad (v : String) (h : signedDecimal v = none) :
    ∃ x e, strconv.Atoi v = (x, some e) := by
  rcases signedDecimal_eq_none h with rfl | ⟨c, cs, ds, rfl, hds, hbad⟩
  · exact ⟨_, _, rfl⟩
  · by_cases hlen :
        0 < (String.mk (c :: cs)).utf8ByteSize ∧ (String.mk (c :: cs)).utf8ByteSize < 19
    · rw [strconv.Atoi_fast c cs ds hds hlen]
      have hn : ¬ (ds ≠ [] ∧ ds.all strconv.isDigit = true) := by
        rintro ⟨h1, h2⟩
        rcases hbad with h3 | h3
        · exact h1 h3
        · rw [h2] at h3
          exact nomatch h3
      rw [if_neg hn]
      exact ⟨_, _, rfl⟩
    · obtain ⟨x, e, hx⟩ := strconv.ParseInt_bad c cs ds hds hbad
      rw [strconv.Atoi_slow _ hlen, hx]
      exact ⟨_, _, rfl⟩
/-- C14, as stated, fails at `X="9223372036854775808"` and at
`X="-9223372036854775809"`: each is a run of decimal digits after an
optional sign, denoting 2^63 and -2^63 - 1, and
`Get("X").Int().Optional().Parse()` panics with the range error instead of
returning that integer. -/
theorem parse_int_counterexample :
    signedDecimal "9223372036854775808" = some 9223372036854775808 ∧
    (Get "X").Int.Optional.Parse (singleEnv "X" "9223372036854775808")
      = .error (Panic.parseFailed GoType.int "9223372036854775808"
          (ParseCause.num (strconv.rangeError "Atoi" "9223372036854775808"))) ∧
    signedDecimal "-9223372036854775809" = some (-9223372036854775809) ∧
    (Get "X").Int.Optional.Parse (singleEnv "X" "-9223372036854775809")
      = .error (Panic.parseFailed GoType.int "-9223372036854775809"
          (ParseCause.num (strconv.rangeError "Atoi" "-9223372036854775809"))) := by
  decide

/-- C14, amended. Int parsing is base-10 signed integer parsing into the
64-bit `int`: for every value `v` of the variable that is not empty,
`Get(name).Int().Optional().Parse()` returns `n` when `v` is an optional sign
followed by one or more decimal digits denoting the integer `n` and
-2^63 ≤ n < 2^63; it panics with the range error when `n` lies outside that
range, and with a parse error for every `v` that is not of that form. -/
theorem parse_int (env : os.Store) (name v : String)
    (hv : os.Getenv env name = v) (hne : v ≠ "") :
    (∀ n : Int, signedDecimal v = some n → -(2 ^ 63 : Int) ≤ n → n < 2 ^ 63 →
      (Get name).Int.Optional.Parse env = .ok n) ∧
    (∀ n : Int, signedDecimal v = some n → (n < -(2 ^ 63 : Int) ∨ (2 ^ 63 : Int) ≤ n) →
      (Get name).Int.Optional.Parse env
        = .error (Panic.parseFailed GoType.int v
            (ParseCause.num (strconv.rangeError "Atoi" v)))) ∧
    (signedDecimal v = none →
      ∃ err, (Get name).Int.Optional.Parse env
        = .error (Panic.parseFailed GoType.int v (ParseCause.num err))) := by
  have hp : (Get name).Int.Optional.Parse env = envv.parseValue GoType.int name v :=
    parse_of_nonempty (Get name).Int.Optional env v hv hne
  refine ⟨fun n hs hlo hhi => ?_, fun n hs hout => ?_, fun hs => ?_⟩
  · rw [hp, envv.parseValue, strconv.Atoi_in_range v n hs hlo hhi]
  · obtain ⟨x, hx⟩ := strconv.Atoi_out_of_range v n hs hout
    rw [hp, envv.parseValue, hx]
  · obtain ⟨x, e, hx⟩ := strconv.Atoi_bad v hs
    rw [hp, envv.parseValue, hx]
    exact ⟨e, rfl⟩

/-- C14, amended, at `X="-42"`, at the smallest `int`, and at the values
`not-an-int`, `4 2`, `0x10` and `1.0`. -/
theorem parse_int_witness :
    (Get "X").Int.Optional.Parse (singleEnv "X" "-42") = .ok (-42) ∧
    (Get "X").Int.Optional.Parse (singleEnv "X" "-9223372036854775808")
      = .ok (-9223372036854775808) ∧
    (∃ err, (Get "X").Int.Optional.Parse (singleEnv "X" "not-an-int")
      = .error (Panic.parseFailed GoType.int "not-an-int" (ParseCause.num err))) ∧
    (∃ err, (Get "X").Int.Optional.Parse (singleEnv "X" "4 2")
      = .error (Panic.parseFailed GoType.int "4 2" (ParseCause.num err))) ∧
    (∃ err, (Get "X").Int.Optional.Parse (singleEnv "X" "0x10")
      = .error (Panic.parseFailed GoType.int "0x10" (ParseCause.num err))) ∧
    (∃ err, (Get "X").Int.Optional.Parse (singleEnv "X" "1.0")
      = .error (Panic.parseFailed GoType.int "1.0" (ParseCause.num err))) :=
  ⟨(parse_int (singleEnv "X" "-42") "X" "-42" (by decide) (by decide)).1 (-42)
     (by decide) (by decide) (by decide),
   (parse_int (singleEnv "X" "-9223372036854775808") "X" "-9223372036854775808"
     (by decide) (by decide)).1 (-9223372036854775808) (by decide) (by decide) (by decide),
   (parse_int (singleEnv "X" "not-an-int") "X" "not-an-int" (by decide) (by decide)).2.2
     (by decide),
   (parse_int (singleEnv "X" "4 2") "X" "4 2" (by decide) (by decide)).2.2 (by decide),
   (parse_int (singleEnv "X" "0x10") "X" "0x10" (by decide) (by decide)).2.2 (by decide),
   (parse_int (singleEnv "X" "1.0") "X" "1.0" (by decide) (by decide)).2.2 (by decide)⟩

/-! ## The units of a duration -/

/-- A digit is a character of a magnitude. -/
theorem time.isNumeric_of_isDigit {c : Char} (h : strconv.isDigit c = true) :
    time.isNumeric c = true := by
  simp [time.isNumeric, h]

/-- What `time.leadingInt` consumes are digits. -/
theorem time.leadingInt_shape (s : List Char) (x v : Nat) (r : List Char)
    (h : time.leadingInt s x = some (v, r)) :
    ∃ ds, s = ds ++ r ∧ ∀ c ∈ ds, time.isNumeric c = true := by
  induction s generalizing x with
  | nil =>
    simp only [time.leadingInt, Option.some.injEq, Prod.mk.injEq] at h
    exact ⟨[], by rw [← h.2]; rfl, fun _ hc => nomatch hc⟩
  | cons c cs ih =>
    unfold time.leadingInt at h
    by_cases hd : strconv.isDigit c = true
    · rw [if_neg (by simp [hd])] at h
      split at h
      · exact nomatch h
      · simp only at h
        split at h
        · exact nomatch h
        · obtain ⟨ds, hds, hnum⟩ := ih _ h
          refine ⟨c :: ds, by rw [hds]; rfl, ?_⟩
          intro a ha
          rcases List.mem_cons.mp ha with rfl | ha
          · exact time.isNumeric_of_isDigit hd
          · exact hnum a ha
    · rw [if_pos (by simp [hd])] at h
      simp only [Option.some.injEq, Prod.mk.injEq] at h
      exact ⟨[], by rw [← h.2]; rfl, fun _ hc => nomatch hc⟩

/-- What `time.leadingFraction` consumes are digits. -/
theorem time.leadingFraction_shape (s : List Char) (x : Nat)
    (scale : strconv.NonNegFloat64) (o : Bool) :
    ∃ ds, s = ds ++ (time.leadingFraction s x scale o).2.2 ∧
      ∀ c ∈ ds, time.isNumeric c = true := by
  induction s generalizing x scale o with
  | nil => exact ⟨[], rfl, fun _ hc => nomatch hc⟩
  | cons c cs ih =>
    have hcons : ∀ (x1 : Nat) (scale1 : strconv.NonNegFloat64) (o1 : Bool),
        strconv.isDigit c = true →
        ∃ ds, c :: cs = ds ++ (time.leadingFraction cs x1 scale1 o1).2.2 ∧
          ∀ a ∈ ds, time.isNumeric a = true := by
      intro x1 scale1 o1 hd
      obtain ⟨ds, hds, hnum⟩ := ih x1 scale1 o1
      refine ⟨c :: ds, by rw [List.cons_append, ← hds], ?_⟩
      intro a ha
      rcases List.mem_cons.mp ha with rfl | ha
      · exact time.isNumeric_of_isDigit hd
      · exact hnum a ha
    unfold time.leadingFraction
    by_cases hd : strconv.isDigit c = true
    · rw [if_neg (by simp [hd])]
      split
      · exact hcons _ _ _ hd
      · split
        · exact hcons _ _ _ hd
        · simp only
          split
          · exact hcons _ _ _ hd
          · exact hcons _ _ _ hd
    · rw [if_pos (by simp [hd])]
      exact ⟨[], rfl, fun _ hc => nomatch hc⟩

/-- What the fraction of a term consumes are a period and digits. -/
theorem time.ParseDuration.fraction_shape (s : List Char) :
    ∃ ds, s = ds ++ (time.ParseDuration.fraction s).2.2.1 ∧
      ∀ c ∈ ds, time.isNumeric c = true := by
  unfold time.ParseDuration.fraction
  split
  · rename_i c cs
    split
    · rename_i hc
      obtain ⟨ds, hds, hnum⟩ :=
        time.leadingFraction_shape cs 0 (strconv.NonNegFloat64.ofNat 1) false
      refine ⟨c :: ds, by rw [List.cons_append]; exact congrArg _ hds, ?_⟩
      intro a ha
      rcases List.mem_cons.mp ha with rfl | ha
      · simp [time.isNumeric, hc]
      · exact hnum a ha
    · exact ⟨[], rfl, fun _ hc => nomatch hc⟩
  · exact ⟨[], rfl, fun _ hc => nomatch hc⟩

/-- The unit that `time.unitSpan` cuts off holds no digit and no period, and
the text left is empty or begins with one. -/
theorem time.unitSpan_shape (s : List Char) :
    s = (time.unitSpan s).1 ++ (time.unitSpan s).2 ∧
    (∀ c ∈ (time.unitSpan s).1, time.isNumeric c = false) ∧
    (∀ c cs, (time.unitSpan s).2 = c :: cs → time.isNumeric c = true) := by
  induction s with
  | nil =>
    refine ⟨rfl, ?_, ?_⟩
    · intro c hc
      exact absurd hc (List.not_mem_nil c)
    · intro c cs h
      exact List.noConfusion h
  | cons c cs ih =>
    unfold time.unitSpan
    by_cases hc : c = '.' ∨ strconv.isDigit c = true
    · rw [if_pos hc]
      refine ⟨rfl, ?_, ?_⟩
      · intro a ha
        exact absurd ha (List.not_mem_nil a)
      intro a as h
      have ha : c = a := (List.cons.inj h).1
      subst ha
      rcases hc with hc | hc
      · simp [time.isNumeric, hc]
      · exact time.isNumeric_of_isDigit hc
    · rw [if_neg hc]
      obtain ⟨h1, h2, h3⟩ := ih
      refine ⟨?_, ?_, h3⟩
      · show c :: cs = c :: ((time.unitSpan cs).1 ++ (time.unitSpan cs).2)
        rw [← h1]
      · intro a ha
        rcases List.mem_cons.mp ha with rfl | ha
        · rw [not_or] at hc
          simp [time.isNumeric, hc.1, hc.2]
        · exact h2 a ha

/-- A term that `time.ParseDuration` accepts ends in a unit of `unitMap`. -/
theorem time.ParseDuration.scaled_shape (v f : Nat) (scale : strconv.NonNegFloat64)
    (s : List Char) (x : Nat) (r : List Char)
    (h : time.ParseDuration.scaled v f scale s = .ok (x, r)) :
    (time.unitSpan s).1 ≠ [] ∧ time.unitMap (String.mk (time.unitSpan s).1) ≠ none ∧
    r = (time.unitSpan s).2 := by
  unfold time.ParseDuration.scaled at h
  simp only at h
  split at h
  · exact nomatch h
  · rename_i hu
    have hne : (time.unitSpan s).1 ≠ [] := fun h0 => hu (by rw [h0]; rfl)
    split at h
    · exact nomatch h
    · rename_i unit hunit
      split at h
      · exact nomatch h
      · have hr : (time.unitSpan s).2 = r := by
          repeat' split at h
          all_goals first | exact (Prod.mk.inj (Except.ok.inj h)).2 | cases h
        refine ⟨hne, ?_, hr.symm⟩
        rw [hunit]
        exact fun h0 => nomatch h0

/-- A term that `time.ParseDuration` accepts is digits and periods, then a
unit of `unitMap`, which ends at the end of the text or at the next digit or
period. -/
theorem time.ParseDuration.term_shape (s : List Char) (v : Nat) (rest : List Char)
    (h : time.ParseDuration.term s = .ok (v, rest)) :
    ∃ num u, s = num ++ u ++ rest ∧ (∀ c ∈ num, time.isNumeric c = true) ∧ u ≠ [] ∧
      (∀ c ∈ u, time.isNumeric c = false) ∧
      (∀ c cs, rest = c :: cs → time.isNumeric c = true) ∧
      time.unitMap (String.mk u) ≠ none := by
  unfold time.ParseDuration.term at h
  split at h
  · exact nomatch h
  · rename_i c cs
    split at h
    · exact nomatch h
    · split at h
      · exact nomatch h
      · rename_i v0 s1 hint
        simp only at h
        split at h
        · exact nomatch h
        · obtain ⟨ds, hds, hdnum⟩ := time.leadingInt_shape _ _ _ _ hint
          obtain ⟨fs, hfs, hfnum⟩ := time.ParseDuration.fraction_shape s1
          obtain ⟨hne, hmap, hr⟩ := time.ParseDuration.scaled_shape _ _ _ _ _ _ h
          obtain ⟨hu1, hu2, hu3⟩ := time.unitSpan_shape (time.ParseDuration.fraction s1).2.2.1
          refine ⟨ds ++ fs, (time.unitSpan (time.ParseDuration.fraction s1).2.2.1).1,
            ?_, ?_, hne, hu2, ?_, hmap⟩
          · rw [hr, List.append_assoc, List.append_assoc, ← hu1, ← hfs, ← hds]
          · intro a ha
            rcases List.mem_append.mp ha with ha | ha
            · exact hdnum a ha
            · exact hfnum a ha
          · intro a as ha
            rw [hr] at ha
            exact hu3 a as ha

/-- Digits and periods before a text add no unit to it. -/
theorem time.unitRunsFrom_numeric (num t : List Char)
    (h : ∀ c ∈ num, time.isNumeric c = true) :
    time.unitRunsFrom (num ++ t) [] = time.unitRunsFrom t [] := by
  induction num with
  | nil => rfl
  | cons c cs ih =>
    have hc := h c (List.mem_cons_self _ _)
    rw [List.cons_append, time.unitRunsFrom, if_pos hc, if_pos rfl]
    exact ih (fun a ha => h a (List.mem_cons_of_mem _ ha))

/-- Characters that are neither digits nor periods go into the unit being
read. -/
theorem time.unitRunsFrom_unit (u rest cur : List Char)
    (h : ∀ c ∈ u, time.isNumeric c = false) :
    time.unitRunsFrom (u ++ rest) cur = time.unitRunsFrom rest (u.reverse ++ cur) := by
  induction u generalizing cur with
  | nil => rfl
  | cons c cs ih =>
    have hc := h c (List.mem_cons_self _ _)
    rw [List.cons_append, time.unitRunsFrom, if_neg (by simp [hc]),
      ih (c :: cur) (fun a ha => h a (List.mem_cons_of_mem _ ha))]
    simp

/-- The unit being read ends at the end of the text and at a digit or
period. -/
theorem time.unitRunsFrom_end (rest cur : List Char)
    (h : ∀ c cs, rest = c :: cs → time.isNumeric c = true) (hcur : cur ≠ []) :
    time.unitRunsFrom rest cur = String.mk cur.reverse :: time.unitRunsFrom rest [] := by
  cases rest with
  | nil => simp [time.unitRunsFrom, hcur]
  | cons c cs =>
    have hc := h c cs rfl
    simp [time.unitRunsFrom, hc, hcur]

/-- The units of a text that begins with a magnitude and its unit. -/
theorem time.unitRuns_term (num u rest : List Char)
    (hnum : ∀ c ∈ num, time.isNumeric c = true) (hne : u ≠ [])
    (hu : ∀ c ∈ u, time.isNumeric c = false)
    (hrest : ∀ c cs, rest = c :: cs → time.isNumeric c = true) :
    time.unitRuns (num ++ u ++ rest) = String.mk u :: time.unitRuns rest := by
  unfold time.unitRuns
  rw [List.append_assoc, time.unitRunsFrom_numeric _ _ hnum, time.unitRunsFrom_unit _ _ _ hu,
    time.unitRunsFrom_end _ _ hrest (by simpa using hne)]
  simp

/-- A text that the loop of `time.ParseDuration` accepts holds units of
`unitMap` only, and when it is not empty it holds a unit and ends in one. -/
theorem time.ParseDuration.loop_shape (fuel : Nat) (s : List Char) (d r : Nat)
    (h : time.ParseDuration.loop fuel s d = .ok r) :
    (∀ u ∈ time.unitRuns s, time.unitMap u ≠ none) ∧
    (s ≠ [] → time.unitRuns s ≠ [] ∧ ∀ c, s.getLast? = some c → time.isNumeric c = false) := by
  induction fuel generalizing s d with
  | zero =>
    cases s with
    | nil =>
      refine ⟨?_, fun h0 => absurd rfl h0⟩
      intro u hu
      exact absurd hu (List.not_mem_nil u)
    | cons c cs => exact nomatch h
  | succ fuel ih =>
    cases s with
    | nil =>
      refine ⟨?_, fun h0 => absurd rfl h0⟩
      intro u hu
      exact absurd hu (List.not_mem_nil u)
    | cons c cs =>
      simp only [time.ParseDuration.loop] at h
      cases ht : time.ParseDuration.term (c :: cs) with
      | error e =>
        rw [ht] at h
        exact nomatch h
      | ok vr =>
        obtain ⟨v, rest⟩ := vr
        rw [ht] at h
        simp only at h
        split at h
        · exact nomatch h
        · obtain ⟨num, u, hs, hnum, hne, hu, hrest, hmap⟩ :=
            time.ParseDuration.term_shape _ _ _ ht
          obtain ⟨ih1, ih2⟩ := ih rest _ h
          have hruns := time.unitRuns_term num u rest hnum hne hu hrest
          rw [hs, hruns]
          refine ⟨?_, fun _ => ⟨List.cons_ne_nil _ _, ?_⟩⟩
          · intro x hx
            rcases List.mem_cons.mp hx with rfl | hx
            · exact hmap
            · exact ih1 x hx
          · intro a ha
            by_cases hr : rest = []
            · subst hr
              rw [List.append_nil, List.getLast?_append] at ha
              obtain ⟨ys, hys⟩ := List.getLast?_eq_some_iff.mp
                (show u.getLast? = some a by
                  cases hl : u.getLast? with
                  | none => exact absurd (List.getLast?_eq_none_iff.mp hl) hne
                  | some b =>
                    rw [hl] at ha
                    exact ha)
              exact hu a (by rw [hys]; simp)
            · rw [List.getLast?_append] at ha
              cases hl : rest.getLast? with
              | none => exact absurd (List.getLast?_eq_none_iff.mp hl) hr
              | some b =>
                rw [hl] at ha
                have hab : b = a := by simpa using ha
                subst hab
                exact (ih2 hr).2 b hl

/-- A value that `time.ParseDuration` accepts is, after its sign, `0` or a
text that its loop accepts. -/
theorem time.ParseDuration_ok (v : String) (d : Int) (h : time.ParseDuration v = .ok d) :
    time.afterSign v = ['0'] ∨
    (time.afterSign v ≠ [] ∧
      ∃ r, time.ParseDuration.loop (time.afterSign v).length (time.afterSign v) 0 = .ok r) := by
  have hs : ∀ s1 : List Char, ∀ neg : Bool,
      (if s1 = ['0'] then (.ok 0 : Except time.DurationError Int)
        else if s1 = [] then .error time.DurationError.invalid
        else
          match time.ParseDuration.loop s1.length s1 0 with
          | .error e => .error e
          | .ok d =>
            if neg then .ok (time.toInt64 (-(time.toInt64 d)))
            else if d > 2 ^ 63 - 1 then .error time.DurationError.invalid
            else .ok (time.toInt64 d)) = .ok d →
      s1 = ['0'] ∨ (s1 ≠ [] ∧ ∃ r, time.ParseDuration.loop s1.length s1 0 = .ok r) := by
    intro s1 neg h1
    by_cases h0 : s1 = ['0']
    · exact Or.inl h0
    · rw [if_neg h0] at h1
      by_cases hn : s1 = []
      · rw [if_pos hn] at h1
        exact nomatch h1
      · rw [if_neg hn] at h1
        cases hl : time.ParseDuration.loop s1.length s1 0 with
        | error e =>
          rw [hl] at h1
          exact nomatch h1
        | ok r => exact Or.inr ⟨hn, r, rfl⟩
  unfold time.ParseDuration at h
  unfold time.afterSign
  cases hv : v.data with
  | nil =>
    rw [hv] at h
    exact hs [] false h
  | cons c cs =>
    rw [hv] at h
    by_cases hc : c = '-' ∨ c = '+'
    · simp only [hc, if_true] at h ⊢
      exact hs cs _ h
    · simp only [hc, if_false] at h ⊢
      exact hs (c :: cs) _ h

/-- A value that `time.ParseDuration` accepts and that is not `0` after its
sign holds a unit, holds units of `unitMap` only, and ends in a unit. -/
theorem time.ParseDuration_units (v : String) (d : Int) (h : time.ParseDuration v = .ok d)
    (h0 : time.afterSign v ≠ ['0']) :
    (∀ u ∈ time.unitRuns (time.afterSign v), time.unitMap u ≠ none) ∧
    time.unitRuns (time.afterSign v) ≠ [] ∧
    ∀ c, (time.afterSign v).getLast? = some c → time.isNumeric c = false := by
  rcases time.ParseDuration_ok v d h with h1 | ⟨hne, r, hr⟩
  · exact absurd h1 h0
  · obtain ⟨h2, h3⟩ := time.ParseDuration.loop_shape _ _ _ _ hr
    exact ⟨h2, (h3 hne).1, (h3 hne).2⟩

/-- The type switch of `Parse` on a duration that `time.ParseDuration`
rejects panics with the parse error. -/
theorem parseValue_duration_error (name v : String) (err : time.DurationError)
    (h : time.ParseDuration v = .error err) :
    envv.parseValue GoType.duration name v
      = .error (Panic.parseFailed GoType.duration v (ParseCause.duration err)) := by
  simp [envv.parseValue, h]

/-- The type switch of `Parse` on a duration that `time.ParseDuration`
accepts returns it. -/
theorem parseValue_duration_ok (name v : String) (d : Int)
    (h : time.ParseDuration v = .ok d) :
    envv.parseValue GoType.duration name v = .ok d := by
  simp [envv.parseValue, h]

/-- A value with a unit that `unitMap` lacks fails to parse as a duration. -/
theorem time.ParseDuration_unknown_unit (v : String)
    (h : ∃ u ∈ time.unitRuns (time.afterSign v), time.unitMap u = none) :
    ∃ err, time.ParseDuration v = .error err := by
  cases hp : time.ParseDuration v with
  | error err => exact ⟨err, rfl⟩
  | ok d =>
    obtain ⟨u, hu, hmap⟩ := h
    have h0 : time.afterSign v ≠ ['0'] := by
      intro h0
      have hnil : time.unitRuns ['0'] = [] := by decide
      rw [h0, hnil] at hu
      exact absurd hu (List.not_mem_nil u)
    exact absurd hmap ((time.ParseDuration_units v d hp h0).1 u hu)

/-- A value that holds no unit, or none at its end, and is not `0` after its
sign fails to parse as a duration. -/
theorem time.ParseDuration_no_unit (v : String)
    (h : time.unitRuns (time.afterSign v) = [] ∨
      ∃ c, (time.afterSign v).getLast? = some c ∧ time.isNumeric c = true)
    (h0 : time.afterSign v ≠ ['0']) :
    ∃ err, time.ParseDuration v = .error err := by
  cases hp : time.ParseDuration v with
  | error err => exact ⟨err, rfl⟩
  | ok d =>
    obtain ⟨_, h2, h3⟩ := time.ParseDuration_units v d hp h0
    rcases h with h | ⟨c, hc, hnum⟩
    · exact absurd h h2
    · rw [h3 c hc] at hnum
      exact nomatch hnum

/-- C16, as stated, fails at the values `0`, `+0` and `-0`, which hold no
unit and parse to the duration 0, and at the empty value, which holds no unit
and makes `Get("X").Duration().Required().Parse()` panic for a missing
variable, not with a parse error. -/
theorem parse_duration_counterexample :
    (time.unitRuns (time.afterSign "0") = [] ∧
      (Get "X").Duration.Required.Parse (singleEnv "X" "0") = .ok 0) ∧
    (time.unitRuns (time.afterSign "+0") = [] ∧
      (Get "X").Duration.Required.Parse (singleEnv "X" "+0") = .ok 0) ∧
    (time.unitRuns (time.afterSign "-0") = [] ∧
      (Get "X").Duration.Required.Parse (singleEnv "X" "-0") = .ok 0) ∧
    (time.unitRuns (time.afterSign "") = [] ∧
      (Get "X").Duration.Required.Parse (singleEnv "X" "")
        = .error (Panic.requiredMissing "X")) := by
  decide

/-- C16, amended. Duration parsing reads a run of magnitude and unit pairs.
With the value `1h30m`, `Get(name).Duration().Required().Parse()` returns 90
minutes, that is 5 400 000 000 000 nanoseconds, and with `500ms` it returns
500 milliseconds; `10x` panics with the parse error of an unknown unit and
`10` with that of a missing unit.  In general, take a value that is not
empty and, after its one optional sign, its units: the longest runs of
characters that are neither digits nor periods.  When one of the units is
unknown to `time.ParseDuration`, `Parse` panics with a parse error; and when
the value holds no unit at all, or ends in a digit or a period, with no unit
after its last magnitude, and is not `0`, `+0` or `-0`, `Parse` panics with
a parse error. -/
theorem parse_duration (env : os.Store) (name v : String)
    (hv : os.Getenv env name = v) (hne : v ≠ "") :
    (v = "1h30m" →
      (Get name).Duration.Required.Parse env = .ok (90 * time.Minute) ∧
      90 * time.Minute = 5400000000000) ∧
    (v = "500ms" →
      (Get name).Duration.Required.Parse env = .ok (500 * time.Millisecond)) ∧
    (v = "10x" →
      (Get name).Duration.Required.Parse env
        = .error (Panic.parseFailed GoType.duration "10x"
            (ParseCause.duration (time.DurationError.unknownUnit "x")))) ∧
    (v = "10" →
      (Get name).Duration.Required.Parse env
        = .error (Panic.parseFailed GoType.duration "10"
            (ParseCause.duration time.DurationError.missingUnit))) ∧
    ((∃ u ∈ time.unitRuns (time.afterSign v), time.unitMap u = none) →
      ∃ err, (Get name).Duration.Required.Parse env
        = .error (Panic.parseFailed GoType.duration v (ParseCause.duration err))) ∧
    ((time.unitRuns (time.afterSign v) = [] ∨
        ∃ c, (time.afterSign v).getLast? = some c ∧ time.isNumeric c = true) →
      time.afterSign v ≠ ['0'] →
      ∃ err, (Get name).Duration.Required.Parse env
        = .error (Panic.parseFailed GoType.duration v (ParseCause.duration err))) := by
  have hp : (Get name).Duration.Required.Parse env = envv.parseValue GoType.duration name v :=
    parse_of_nonempty (Get name).Duration.Required env v hv hne
  rw [hp]
  refine ⟨fun h => ⟨?_, by decide⟩, fun h => ?_, fun h => ?_, fun h => ?_, fun h => ?_,
    fun h h0 => ?_⟩
  · subst h
    exact parseValue_duration_ok name "1h30m" _ (by decide)
  · subst h
    exact parseValue_duration_ok name "500ms" _ (by decide)
  · subst h
    exact parseValue_duration_error name "10x" _ (by decide)
  · subst h
    exact parseValue_duration_error name "10" _ (by decide)
  · obtain ⟨err, herr⟩ := time.ParseDuration_unknown_unit v h
    exact ⟨err, parseValue_duration_error name v err herr⟩
  · obtain ⟨err, herr⟩ := time.ParseDuration_no_unit v h h0
    exact ⟨err, parseValue_duration_error name v err herr⟩

/-- C16, amended, at `X="1h30m"`, at `X="1h30x"` with the unknown unit `x`, at
`X="1.5"` with no unit and at `X="1h30"` with no unit at its end. -/
theorem parse_duration_witness :
    (Get "X").Duration.Required.Parse (singleEnv "X" "1h30m") = .ok 5400000000000 ∧
    (time.unitRuns (time.afterSign "1h30x") = ["h", "x"] ∧
      ∃ err, (Get "X").Duration.Required.Parse (singleEnv "X" "1h30x")
        = .error (Panic.parseFailed GoType.duration "1h30x" (ParseCause.duration err))) ∧
    (time.unitRuns (time.afterSign "1.5") = [] ∧
      ∃ err, (Get "X").Duration.Required.Parse (singleEnv "X" "1.5")
        = .error (Panic.parseFailed GoType.duration "1.5" (ParseCause.duration err))) ∧
    (time.unitRuns (time.afterSign "-1h30") = ["h"] ∧
      ∃ err, (Get "X").Duration.Required.Parse (singleEnv "X" "-1h30")
        = .error (Panic.parseFailed GoType.duration "-1h30" (ParseCause.duration err))) :=
  ⟨((parse_duration (singleEnv "X" "1h30m") "X" "1h30m" (by decide) (by decide)).1 rfl).1,
   ⟨by decide,
    (parse_duration (singleEnv "X" "1h30x") "X" "1h30x" (by decide) (by decide)).2.2.2.2.1
      ⟨"x", by decide, by decide⟩⟩,
   ⟨by decide,
    (parse_duration (singleEnv "X" "1.5") "X" "1.5" (by decide) (by decide)).2.2.2.2.2
      (Or.inl (by decide)) (by decide)⟩,
   ⟨by decide,
    (parse_duration (singleEnv "X" "-1h30") "X" "-1h30" (by decide) (by decide)).2.2.2.2.2
      (Or.inr ⟨'0', by decide, by decide⟩) (by decide)⟩⟩

end Envv
